import Mathlib

set_option autoImplicit false
set_option linter.unusedVariables false

/-!
Verification of the snmpkit core: the OID radix trie (`src/oid/trie.rs`),
OID string parsing and display (`src/oid/mod.rs`), and the AgentX Response
PDU codec paths exposed through `src/agentx/bindings.rs`.

OIDs are modelled as `List Nat` (the Rust `Oid` wraps a `Vec<u32>`; the
nonempty invariant of `Oid::new` appears as explicit hypotheses).  Bytes are
modelled as `Nat` values below 256.  The trie node's `BTreeMap<u32, TrieNode>`
is modelled as an association list strictly sorted by key; sortedness is part
of the well-formedness invariant `WFNode` that every reachable trie enjoys.
-/

namespace Snmpkit

/-! ## Componentwise lexicographic order on OIDs

Rust's derived `Ord` on `Vec<u32>` (used by `Oid::cmp`, §3 of the spec):
a shorter sequence precedes any extension of it, otherwise the first
differing component decides. -/

def oidLt : List Nat → List Nat → Bool
  | [], [] => false
  | [], _ :: _ => true
  | _ :: _, [] => false
  | a :: as, b :: bs => decide (a < b) || (a == b && oidLt as bs)

/-- Reflexive closure of `oidLt`. -/
def oidLe (a b : List Nat) : Bool := a == b || oidLt a b

@[simp] theorem oidLt_nil_nil : oidLt [] [] = false := rfl

@[simp] theorem oidLt_nil_cons (b : Nat) (bs : List Nat) : oidLt [] (b :: bs) = true := rfl

@[simp] theorem oidLt_cons_nil (a : Nat) (as : List Nat) : oidLt (a :: as) [] = false := rfl

theorem oidLt_cons (a b : Nat) (as bs : List Nat) :
    oidLt (a :: as) (b :: bs) = (decide (a < b) || (a == b && oidLt as bs)) := rfl

theorem oidLt_irrefl : ∀ o : List Nat, oidLt o o = false
  | [] => rfl
  | _ :: as => by simp [oidLt_cons, oidLt_irrefl as]

theorem oidLt_trans : ∀ {a b c : List Nat},
    oidLt a b = true → oidLt b c = true → oidLt a c = true
  | [], _ :: _, _ :: _, _, _ => rfl
  | a :: as, b :: bs, c :: cs, hab, hbc => by
    simp only [oidLt_cons, Bool.or_eq_true, decide_eq_true_eq, Bool.and_eq_true,
      beq_iff_eq] at hab hbc ⊢
    rcases hab with h1 | ⟨rfl, h1⟩ <;> rcases hbc with h2 | ⟨rfl, h2⟩
    · exact Or.inl (h1.trans h2)
    · exact Or.inl h1
    · exact Or.inl h2
    · exact Or.inr ⟨rfl, oidLt_trans h1 h2⟩

theorem oidLt_asymm {a b : List Nat} (h : oidLt a b = true) : oidLt b a = false := by
  by_contra hc
  have := oidLt_trans h (by simpa using hc)
  simp [oidLt_irrefl] at this

theorem oidLt_trichotomy : ∀ a b : List Nat,
    a = b ∨ oidLt a b = true ∨ oidLt b a = true
  | [], [] => Or.inl rfl
  | [], _ :: _ => Or.inr (Or.inl rfl)
  | _ :: _, [] => Or.inr (Or.inr rfl)
  | a :: as, b :: bs => by
    rcases Nat.lt_trichotomy a b with h | rfl | h
    · exact Or.inr (Or.inl (by simp [oidLt_cons, h]))
    · rcases oidLt_trichotomy as bs with rfl | h | h
      · exact Or.inl rfl
      · exact Or.inr (Or.inl (by simp [oidLt_cons, h]))
      · exact Or.inr (Or.inr (by simp [oidLt_cons, h]))
    · exact Or.inr (Or.inr (by simp [oidLt_cons, h]))

theorem oidLt_of_ne_of_not_gt {a b : List Nat} (hne : a ≠ b) (h : oidLt b a = false) :
    oidLt a b = true := by
  rcases oidLt_trichotomy a b with rfl | hlt | hgt
  · exact absurd rfl hne
  · exact hlt
  · rw [hgt] at h; exact absurd h (by simp)

/-- Boolean prefix test on OID component lists (Rust `starts_with` on slices). -/
def listPfx : List Nat → List Nat → Bool
  | [], _ => true
  | _ :: _, [] => false
  | a :: as, b :: bs => a == b && listPfx as bs

@[simp] theorem listPfx_nil (l : List Nat) : listPfx [] l = true := by
  cases l <;> rfl

theorem listPfx_cons (a b : Nat) (as bs : List Nat) :
    listPfx (a :: as) (b :: bs) = (a == b && listPfx as bs) := rfl

theorem listPfx_iff : ∀ p x : List Nat, listPfx p x = true ↔ ∃ s, p ++ s = x
  | [], x => by simp
  | _ :: _, [] => by simp [listPfx]
  | a :: as, b :: bs => by
    simp only [listPfx_cons, Bool.and_eq_true, beq_iff_eq, listPfx_iff as bs]
    constructor
    · rintro ⟨rfl, s, rfl⟩; exact ⟨s, rfl⟩
    · rintro ⟨s, h⟩
      obtain ⟨rfl, h2⟩ := List.cons.inj h
      exact ⟨rfl, s, h2⟩

/-- A strict prefix of an OID is strictly below it in the §3 order. -/
theorem oidLt_of_strict_pfx : ∀ {p x : List Nat},
    listPfx p x = true → p ≠ x → oidLt p x = true
  | [], [], h, hne => absurd rfl hne
  | [], _ :: _, _, _ => rfl
  | _ :: _, [], h, _ => by simp [listPfx] at h
  | a :: as, b :: bs, h, hne => by
    simp only [listPfx_cons, Bool.and_eq_true, beq_iff_eq] at h
    obtain ⟨rfl, h2⟩ := h
    have hne' : as ≠ bs := fun hh => hne (by rw [hh])
    simp [oidLt_cons, oidLt_of_strict_pfx h2 hne']

/-! ## The trie data model (`src/oid/trie.rs`)

`TrieNode` holds an optional value and a child map keyed by sub-identifier.
The Rust `BTreeMap<u32, TrieNode<V>>` is modelled as an association list;
the map's key-sortedness is the `WFNode` invariant below. -/

variable {V : Type}

inductive TrieNode (V : Type) : Type where
  | mk : Option V → List (Nat × TrieNode V) → TrieNode V

def TrieNode.value : TrieNode V → Option V
  | .mk v _ => v

def TrieNode.children : TrieNode V → List (Nat × TrieNode V)
  | .mk _ cs => cs

@[simp] theorem TrieNode.value_mk (v : Option V) (cs : List (Nat × TrieNode V)) :
    (TrieNode.mk v cs).value = v := rfl

@[simp] theorem TrieNode.children_mk (v : Option V) (cs : List (Nat × TrieNode V)) :
    (TrieNode.mk v cs).children = cs := rfl

/-- Rust `TrieNode::default()`: no value, no children. -/
def TrieNode.empty : TrieNode V := .mk none []

/-- Key lookup in the child map (`BTreeMap::get`). -/
def lookupChild (k : Nat) : List (Nat × TrieNode V) → Option (TrieNode V)
  | [] => none
  | (k', c) :: rest => if k = k' then some c else lookupChild k rest

/-- Rust `OidTrie::get`: descend by each sub-identifier; a missing child yields `None`. -/
def getNode : TrieNode V → List Nat → Option V
  | n, [] => n.value
  | .mk _ cs, k :: ks =>
    match lookupChild k cs with
    | some c => getNode c ks
    | none => none

/-- Insertion into the child map at key `k`, applying `f` to the existing child
(or to a fresh `TrieNode::default()` — `BTreeMap::entry(k).or_default()`),
keeping keys sorted and threading out the displaced value. -/
def insertChild (f : TrieNode V → Option V × TrieNode V) (k : Nat) :
    List (Nat × TrieNode V) → Option V × List (Nat × TrieNode V)
  | [] =>
    let r := f TrieNode.empty
    (r.1, [(k, r.2)])
  | (k', c) :: rest =>
    if k < k' then
      let r := f TrieNode.empty
      (r.1, (k, r.2) :: (k', c) :: rest)
    else if k = k' then
      let r := f c
      (r.1, (k', r.2) :: rest)
    else
      let r := insertChild f k rest
      (r.1, (k', c) :: r.2)

/-- Rust `OidTrie::insert` on the root node: descend creating missing children, then
`node.value.replace(value)` — the first component is the displaced value. -/
def insertNode : TrieNode V → List Nat → V → Option V × TrieNode V
  | .mk w cs, [], v => (w, .mk (some v) cs)
  | .mk w cs, k :: ks, v =>
    let r := insertChild (fun c => insertNode c ks v) k cs
    (r.1, .mk w r.2)

/-- Applies `f` to the child at key `k` (if present), then prunes the child if
it ended up value-less and child-less — the body of `remove_recursive`'s
descent step including the `node.children.remove(&part)` pruning. -/
def updateChild (f : TrieNode V → Option V × TrieNode V) (k : Nat) :
    List (Nat × TrieNode V) → Option V × List (Nat × TrieNode V)
  | [] => (none, [])
  | (k', c) :: rest =>
    if k = k' then
      match f c with
      | (val, .mk none []) => (val, rest)
      | (val, c') => (val, (k', c') :: rest)
    else
      let r := updateChild f k rest
      (r.1, (k', c) :: r.2)

/-- Rust `OidTrie::remove_recursive`: at the target depth take the value
(`node.value.take()`); otherwise recurse into the matching child and prune. -/
def removeRec : TrieNode V → List Nat → Option V × TrieNode V
  | .mk w cs, [] => (w, .mk none cs)
  | .mk w cs, k :: ks =>
    let r := updateChild (fun c => removeRec c ks) k cs
    (r.1, .mk w r.2)

mutual

/-- Rust `OidTrie::first_in_subtree`: the node's own value wins, else the first
value found in the children in ascending key order.  The returned path is
relative to the subtree root (the Rust code threads an accumulator and
returns the absolute path; callers here prepend the component instead). -/
def firstInSubtree : TrieNode V → Option (List Nat × V)
  | .mk (some v) _ => some ([], v)
  | .mk none cs => firstInList cs

/-- The child loop inside `first_in_subtree`. -/
def firstInList : List (Nat × TrieNode V) → Option (List Nat × V)
  | [] => none
  | (k, c) :: rest =>
    match firstInSubtree c with
    | some (p, v) => some (k :: p, v)
    | none => firstInList rest

end

/-- The loop of `find_next` over `node.children.range(target_part..)`.
Children below `t` are outside the range; the child equal to `t` recurses
deeper via `fn` (instantiated with `find_next` on the rest of the target);
any child above `t` contributes the first value of its subtree. -/
def findNextChildren (fn : TrieNode V → Option (List Nat × V)) (t : Nat) :
    List (Nat × TrieNode V) → Option (List Nat × V)
  | [] => none
  | (k, c) :: rest =>
    if k < t then findNextChildren fn t rest
    else if k = t then
      match fn c with
      | some (p, v) => some (k :: p, v)
      | none => findNextChildren fn t rest
    else
      match firstInSubtree c with
      | some (p, v) => some (k :: p, v)
      | none => findNextChildren fn t rest

/-- Rust `OidTrie::find_next`.  With the whole target consumed (`depth == target.len()`)
the answer is the first value strictly below the current node, i.e. the child
loop of the `depth == target.len()` branch (which coincides with
`first_in_subtree`'s child loop).  While target components remain, the
`range(target_part..)` loop applies.  The Rust source's `depth > target.len()`
branch is unreachable: `find_next` only ever recurses while `depth < target.len()`,
incrementing `depth` by one. -/
def findNext : TrieNode V → List Nat → Option (List Nat × V)
  | n, [] => firstInList n.children
  | n, t :: ts => findNextChildren (fun c => findNext c ts) t n.children

/-- The loop of `OidTrie::longest_prefix`, with `depth` the current matched
depth and `last` the deepest `(depth, value)` match seen so far.  On a missing
child the Rust loop breaks and re-checks the current node's value — which this
step already recorded in `last'` — so the break returns `last'` directly. -/
def longestPfxAux : TrieNode V → List Nat → Nat → Option (Nat × V) → Option (Nat × V)
  | n, [], depth, last =>
    match n.value with
    | some v => some (depth, v)
    | none => last
  | n, p :: ps, depth, last =>
    let last' := match n.value with
                 | some v => some (depth, v)
                 | none => last
    match lookupChild p n.children with
    | some c => longestPfxAux c ps (depth + 1) last'
    | none => last'

mutual

/-- The output of `TrieIter` (i.e. `OidTrie::iter`) as a list: the iterator
emits the node's own value on entry (the `pending` field) and then walks the
children in ascending key order, depth first. -/
def entries : TrieNode V → List (List Nat × V)
  | .mk v cs =>
    (match v with
     | some x => [(([] : List Nat), x)]
     | none => []) ++ entriesList cs

def entriesList : List (Nat × TrieNode V) → List (List Nat × V)
  | [] => []
  | (k, c) :: rest => (entries c).map (fun pv => (k :: pv.1, pv.2)) ++ entriesList rest

end

/-! ## The `OidTrie` wrapper: root node plus length counter -/

structure OidTrie (V : Type) where
  root : TrieNode V
  len : Nat

/-- Rust `OidTrie::new`. -/
def OidTrie.new : OidTrie V := ⟨TrieNode.empty, 0⟩

/-- Rust `OidTrie::is_empty`. -/
def OidTrie.isEmpty (T : OidTrie V) : Bool := T.len == 0

/-- Rust `OidTrie::clear`: replace the root with an empty node and zero the counter. -/
def OidTrie.clear (_T : OidTrie V) : OidTrie V := ⟨TrieNode.empty, 0⟩

/-- Rust `OidTrie::insert`: returns the updated trie and the displaced value; the
length counter increments only on a `None → Some` transition. -/
def OidTrie.insert (T : OidTrie V) (o : List Nat) (v : V) : OidTrie V × Option V :=
  let r := insertNode T.root o v
  (⟨r.2, if r.1.isNone then T.len + 1 else T.len⟩, r.1)

/-- Rust `OidTrie::get`. -/
def OidTrie.get (T : OidTrie V) (o : List Nat) : Option V := getNode T.root o

/-- Rust `OidTrie::contains` is `get(...).is_some()`. -/
def OidTrie.contains (T : OidTrie V) (o : List Nat) : Bool := (T.get o).isSome

/-- Rust `OidTrie::remove`: returns the updated trie and the removed value; the
length counter decrements iff a value was taken. -/
def OidTrie.remove (T : OidTrie V) (o : List Nat) : OidTrie V × Option V :=
  let r := removeRec T.root o
  (⟨r.2, if r.1.isSome then T.len - 1 else T.len⟩, r.1)

/-- Rust `OidTrie::get_next` (the `Oid::new(parts).unwrap()` rewrap is identity here). -/
def OidTrie.getNext (T : OidTrie V) (o : List Nat) : Option (List Nat × V) :=
  findNext T.root o

/-- Rust `OidTrie::longest_prefix`: the matched OID is the query truncated to the
depth of the deepest visited node holding a value. -/
def OidTrie.longestPfx (T : OidTrie V) (x : List Nat) : Option (List Nat × V) :=
  (longestPfxAux T.root x 0 none).map (fun dv => (x.take dv.1, dv.2))

/-- Rust `OidTrie::iter` as the list of emitted pairs. -/
def OidTrie.iter (T : OidTrie V) : List (List Nat × V) := entries T.root

/-- Rust `OidTrie::keys`. -/
def OidTrie.keysOf (T : OidTrie V) : List (List Nat) := T.iter.map Prod.fst

/-! ## Invariants -/

/-- A node is non-trivial when it holds a value or has at least one child
(the existence condition of §3's "Trie node"). -/
def TrieNode.nonTrivial (n : TrieNode V) : Prop := n.value.isSome = true ∨ n.children ≠ []

/-- Well-formedness: child keys are strictly sorted at every level (the
`BTreeMap` ordering the Rust representation provides for free). -/
inductive WFNode : TrieNode V → Prop where
  | mk : ∀ (v : Option V) (cs : List (Nat × TrieNode V)),
      List.Pairwise (fun a b => a.1 < b.1) cs →
      (∀ p ∈ cs, WFNode p.2) →
      WFNode (.mk v cs)

/-- Pruning invariant: every node strictly below this one is non-trivial. -/
inductive Pruned : TrieNode V → Prop where
  | mk : ∀ (v : Option V) (cs : List (Nat × TrieNode V)),
      (∀ p ∈ cs, (p.2).nonTrivial) →
      (∀ p ∈ cs, Pruned p.2) →
      Pruned (.mk v cs)

/-- Tries reachable from `OidTrie::new` by `insert` / `remove` / `clear` with
nonempty OIDs (the `Oid` type guarantees nonemptiness). -/
inductive Reachable : OidTrie V → Prop where
  | new : Reachable OidTrie.new
  | insert : ∀ {T : OidTrie V} (o : List Nat) (v : V),
      Reachable T → o ≠ [] → Reachable (T.insert o v).1
  | remove : ∀ {T : OidTrie V} (o : List Nat),
      Reachable T → o ≠ [] → Reachable (T.remove o).1
  | clear : ∀ {T : OidTrie V}, Reachable T → Reachable T.clear

/-- Structural induction over the nested inductive `TrieNode`. -/
theorem TrieNode.ind {motive : TrieNode V → Prop}
    (h : ∀ v cs, (∀ p ∈ cs, motive p.2) → motive (.mk v cs)) : ∀ n, motive n
  | .mk v cs => h v cs (fun p hp => TrieNode.ind h p.2)
termination_by n => sizeOf n
decreasing_by
  have h1 := List.sizeOf_lt_of_mem hp
  cases p with
  | mk a b => simp at h1 ⊢; omega

/-! ## Point-operation lemmas: `insert`, `get`, `remove` -/

theorem lookupChild_eq_none {k : Nat} : ∀ {cs : List (Nat × TrieNode V)},
    (∀ e ∈ cs, e.1 ≠ k) → lookupChild k cs = none
  | [], _ => rfl
  | (k', c) :: rest, h => by
    have hk : k ≠ k' := fun hh => h (k', c) (by simp) hh.symm
    simp only [lookupChild, if_neg hk]
    exact lookupChild_eq_none (fun e he => h e (by simp [he]))

theorem lookupChild_insertChild_self (f : TrieNode V → Option V × TrieNode V) (k : Nat) :
    ∀ cs : List (Nat × TrieNode V), List.Pairwise (fun a b => a.1 < b.1) cs →
      lookupChild k (insertChild f k cs).2 =
        some (f ((lookupChild k cs).getD TrieNode.empty)).2
  | [], _ => by simp [insertChild, lookupChild]
  | (k', c) :: rest, hs => by
    by_cases h1 : k < k'
    · have hne : k ≠ k' := Nat.ne_of_lt h1
      have hrest : lookupChild k rest = none := by
        refine lookupChild_eq_none (fun e he => ?_)
        have := (List.pairwise_cons.1 hs).1 e he
        omega
      simp [insertChild, lookupChild, h1, hne, hrest]
    · by_cases h2 : k = k'
      · subst h2
        simp [insertChild, lookupChild, h1]
      · simp [insertChild, lookupChild, h1, h2,
          lookupChild_insertChild_self f k rest (List.pairwise_cons.1 hs).2]

theorem insertChild_old (f : TrieNode V → Option V × TrieNode V) (k : Nat) :
    ∀ cs : List (Nat × TrieNode V), List.Pairwise (fun a b => a.1 < b.1) cs →
      (insertChild f k cs).1 = (f ((lookupChild k cs).getD TrieNode.empty)).1
  | [], _ => by simp [insertChild, lookupChild]
  | (k', c) :: rest, hs => by
    by_cases h1 : k < k'
    · have hne : k ≠ k' := Nat.ne_of_lt h1
      have hrest : lookupChild k rest = none := by
        refine lookupChild_eq_none (fun e he => ?_)
        have := (List.pairwise_cons.1 hs).1 e he
        omega
      simp [insertChild, lookupChild, h1, hne, hrest]
    · by_cases h2 : k = k'
      · subst h2
        simp [insertChild, lookupChild, h1]
      · simp [insertChild, lookupChild, h1, h2,
          insertChild_old f k rest (List.pairwise_cons.1 hs).2]

theorem WFNode.sorted {v : Option V} {cs : List (Nat × TrieNode V)}
    (h : WFNode (.mk v cs)) : List.Pairwise (fun a b => a.1 < b.1) cs := by
  cases h; assumption

theorem WFNode.childWF {v : Option V} {cs : List (Nat × TrieNode V)}
    (h : WFNode (.mk v cs)) : ∀ p ∈ cs, WFNode p.2 := by
  cases h; assumption

theorem WFNode_empty : WFNode (TrieNode.empty : TrieNode V) :=
  WFNode.mk none [] (by simp) (by simp)

theorem WFNode_of_lookupChild {k : Nat} {cs : List (Nat × TrieNode V)} {c : TrieNode V}
    (hall : ∀ p ∈ cs, WFNode p.2) (h : lookupChild k cs = some c) : WFNode c := by
  induction cs with
  | nil => simp [lookupChild] at h
  | cons p rest ih =>
    obtain ⟨k', c'⟩ := p
    by_cases hk : k = k'
    · simp [lookupChild, hk] at h
      exact h ▸ hall (k', c') (by simp)
    · simp only [lookupChild, if_neg hk] at h
      exact ih (fun p hp => hall p (by simp [hp])) h

/-- After `insert(o, v)`, `get(o)` finds `v`. -/
theorem getNode_insertNode_self : ∀ (n : TrieNode V), WFNode n → ∀ (o : List Nat) (v : V),
    getNode (insertNode n o v).2 o = some v
  | .mk w cs, _, [], v => rfl
  | .mk w cs, hw, k :: ks, v => by
    simp only [insertNode, getNode, lookupChild_insertChild_self _ _ _ hw.sorted]
    cases h : lookupChild k cs with
    | some c =>
      simpa [h] using getNode_insertNode_self c (WFNode_of_lookupChild hw.childWF h) ks v
    | none =>
      simpa [h] using getNode_insertNode_self TrieNode.empty WFNode_empty ks v

theorem getNode_empty : ∀ o : List Nat, getNode (TrieNode.empty : TrieNode V) o = none
  | [] => rfl
  | _ :: _ => by simp [getNode, TrieNode.empty, lookupChild]

/-- Rust `insert` returns the previous occupant of the value slot, i.e. `get`
before the insertion. -/
theorem insertNode_old : ∀ (n : TrieNode V), WFNode n → ∀ (o : List Nat) (v : V),
    (insertNode n o v).1 = getNode n o
  | .mk w cs, _, [], v => rfl
  | .mk w cs, hw, k :: ks, v => by
    simp only [insertNode, getNode, insertChild_old _ _ _ hw.sorted]
    cases h : lookupChild k cs with
    | some c => simp [h, insertNode_old c (WFNode_of_lookupChild hw.childWF h) ks v]
    | none =>
      simp only [h, Option.getD_none]
      rw [insertNode_old TrieNode.empty WFNode_empty ks v, getNode_empty]

/-- Rust `remove` returns the value that was stored at `o` (if any). -/
theorem removeRec_val : ∀ (n : TrieNode V) (o : List Nat),
    (removeRec n o).1 = getNode n o
  | .mk w cs, [] => rfl
  | .mk w cs, k :: ks => by
    simp only [removeRec, getNode]
    induction cs with
    | nil => simp [updateChild, lookupChild]
    | cons p rest ih =>
      obtain ⟨k', c⟩ := p
      by_cases h : k = k'
      · subst h
        cases hrc : removeRec c ks with
        | mk val c2 =>
          have hv : val = getNode c ks := by rw [← removeRec_val c ks, hrc]
          cases c2 with
          | mk cv ccs =>
            cases cv <;> cases ccs <;>
              simp [updateChild, lookupChild, hrc, hv]
      · simpa [updateChild, h, lookupChild] using ih

/-- Effect of `updateChild` on a later lookup of the same key. -/
theorem lookupChild_updateChild (f : TrieNode V → Option V × TrieNode V) (k : Nat) :
    ∀ cs : List (Nat × TrieNode V), List.Pairwise (fun a b => a.1 < b.1) cs →
      lookupChild k (updateChild f k cs).2 =
        match lookupChild k cs with
        | none => none
        | some c =>
          match (f c).2 with
          | .mk none [] => none
          | c' => some c'
  | [], _ => rfl
  | (k', c) :: rest, hs => by
    by_cases h : k = k'
    · subst h
      have hrest : lookupChild k rest = none := by
        refine lookupChild_eq_none (fun e he => ?_)
        have := (List.pairwise_cons.1 hs).1 e he
        omega
      cases hfc : f c with
      | mk val c2 =>
        cases c2 with
        | mk cv ccs =>
          cases cv <;> cases ccs <;>
            simp [updateChild, lookupChild, hfc, hrest]
    · simp [updateChild, lookupChild, h,
        lookupChild_updateChild f k rest (List.pairwise_cons.1 hs).2]

theorem WFNode_of_updateChild {f : TrieNode V → Option V × TrieNode V} {k : Nat}
    {cs : List (Nat × TrieNode V)}
    (hall : ∀ p ∈ cs, WFNode p.2) (hf : ∀ c, WFNode c → WFNode (f c).2) :
    ∀ e ∈ (updateChild f k cs).2, WFNode e.2 := by
  induction cs with
  | nil => simp [updateChild]
  | cons p rest ih =>
    obtain ⟨k', c⟩ := p
    intro e he
    by_cases h : k = k'
    · subst h
      have hc : WFNode (f c).2 := hf c (hall (k, c) (by simp))
      cases hfc : f c with
      | mk val c2 =>
        rw [hfc] at hc
        rw [updateChild, if_pos rfl, hfc] at he
        cases c2 with
        | mk cv ccs =>
          cases cv with
          | none =>
            cases ccs with
            | nil => exact hall e (by simp [he])
            | cons q qs =>
              simp only [List.mem_cons] at he
              rcases he with rfl | he
              · exact hc
              · exact hall e (by simp [he])
          | some x =>
            simp only [List.mem_cons] at he
            rcases he with rfl | he
            · exact hc
            · exact hall e (by simp [he])
    · rw [updateChild, if_neg h] at he
      simp only [List.mem_cons] at he
      rcases he with rfl | he
      · exact hall (k', c) (by simp)
      · exact ih (fun p hp => hall p (by simp [hp])) e he

theorem updateChild_keys_sublist (f : TrieNode V → Option V × TrieNode V) (k : Nat) :
    ∀ cs : List (Nat × TrieNode V),
      ((updateChild f k cs).2.map Prod.fst).Sublist (cs.map Prod.fst)
  | [] => by simp [updateChild]
  | (k', c) :: rest => by
    by_cases h : k = k'
    · subst h
      cases hfc : f c with
      | mk val c2 =>
        cases c2 with
        | mk cv ccs =>
          cases cv <;> cases ccs <;>
            simp [updateChild, hfc, List.Sublist.cons, List.Sublist.refl,
              List.Sublist.cons₂]
    · simpa [updateChild, h] using
        List.Sublist.cons₂ k' (updateChild_keys_sublist f k rest)

theorem pairwise_keys_iff (cs : List (Nat × TrieNode V)) :
    List.Pairwise (fun (a b : Nat × TrieNode V) => a.1 < b.1) cs ↔
      List.Pairwise (· < ·) (cs.map Prod.fst) := by
  rw [List.pairwise_map]

/-- Rust `remove_recursive` keeps the child maps sorted and well-formed. -/
theorem WFNode_removeRec : ∀ (n : TrieNode V), WFNode n → ∀ o : List Nat,
    WFNode (removeRec n o).2
  | .mk w cs, hw, [] => WFNode.mk none cs hw.sorted hw.childWF
  | .mk w cs, hw, k :: ks => by
    refine WFNode.mk _ _ ?_ ?_
    · rw [pairwise_keys_iff]
      exact ((pairwise_keys_iff cs).1 hw.sorted).sublist
        (updateChild_keys_sublist _ k cs)
    · exact WFNode_of_updateChild hw.childWF
        (fun c hc => WFNode_removeRec c hc ks)

/-- After `remove(o)` the value slot at `o` is empty. -/
theorem getNode_removeRec_self : ∀ (n : TrieNode V), WFNode n → ∀ o : List Nat,
    getNode (removeRec n o).2 o = none
  | .mk w cs, _, [] => rfl
  | .mk w cs, hw, k :: ks => by
    show getNode (.mk w (updateChild (fun c => removeRec c ks) k cs).2) (k :: ks) = none
    rw [getNode, lookupChild_updateChild _ _ _ hw.sorted]
    cases h : lookupChild k cs with
    | none => simp
    | some c =>
      have hrec := getNode_removeRec_self c (WFNode_of_lookupChild hw.childWF h) ks
      cases hr : (removeRec c ks).2 with
      | mk cv ccs => cases cv <;> cases ccs <;> simp_all

/-- Case analysis of membership in the child map after `insertChild`. -/
theorem insertChild_mem_cases (f : TrieNode V → Option V × TrieNode V) (k : Nat) :
    ∀ (cs : List (Nat × TrieNode V)) (e : Nat × TrieNode V), e ∈ (insertChild f k cs).2 →
      e ∈ cs ∨ (e.1 = k ∧
        (e.2 = (f TrieNode.empty).2 ∨ ∃ c, (k, c) ∈ cs ∧ e.2 = (f c).2))
  | [], e, he => by
    simp only [insertChild] at he
    simp only [List.mem_singleton] at he
    subst he
    exact Or.inr ⟨rfl, Or.inl rfl⟩
  | (k', c) :: rest, e, he => by
    by_cases h1 : k < k'
    · rw [insertChild, if_pos h1] at he
      simp only [List.mem_cons] at he
      rcases he with rfl | he | he
      · exact Or.inr ⟨rfl, Or.inl rfl⟩
      · exact Or.inl (by simp [he])
      · exact Or.inl (by simp [he])
    · by_cases h2 : k = k'
      · subst h2
        rw [insertChild, if_neg h1, if_pos rfl] at he
        simp only [List.mem_cons] at he
        rcases he with rfl | he
        · exact Or.inr ⟨rfl, Or.inr ⟨c, by simp⟩⟩
        · exact Or.inl (by simp [he])
      · rw [insertChild, if_neg h1, if_neg h2] at he
        simp only [List.mem_cons] at he
        rcases he with rfl | he
        · exact Or.inl (by simp)
        · rcases insertChild_mem_cases f k rest e he with h | ⟨hk, h | ⟨c', hc', hrw⟩⟩
          · exact Or.inl (by simp [h])
          · exact Or.inr ⟨hk, Or.inl h⟩
          · exact Or.inr ⟨hk, Or.inr ⟨c', by simp [hc'], hrw⟩⟩

/-- Rust `insertChild` keeps the keys strictly sorted. -/
theorem insertChild_sorted (f : TrieNode V → Option V × TrieNode V) (k : Nat) :
    ∀ cs : List (Nat × TrieNode V), List.Pairwise (fun a b => a.1 < b.1) cs →
      List.Pairwise (fun a b => a.1 < b.1) (insertChild f k cs).2
  | [], _ => by simp [insertChild]
  | (k', c) :: rest, hs => by
    obtain ⟨hhead, hrest⟩ := List.pairwise_cons.1 hs
    by_cases h1 : k < k'
    · rw [insertChild, if_pos h1]
      exact List.pairwise_cons.2 ⟨by
        intro e he
        simp only [List.mem_cons] at he
        rcases he with rfl | he
        · exact h1
        · exact lt_trans h1 (hhead e he), hs⟩
    · by_cases h2 : k = k'
      · subst h2
        rw [insertChild, if_neg h1, if_pos rfl]
        exact List.pairwise_cons.2 ⟨fun e he => hhead e he, hrest⟩
      · rw [insertChild, if_neg h1, if_neg h2]
        refine List.pairwise_cons.2 ⟨?_, insertChild_sorted f k rest hrest⟩
        intro e he
        rcases insertChild_mem_cases f k rest e he with h | ⟨hk, _⟩
        · exact hhead e h
        · omega

/-- Rust `insert` keeps the trie well-formed. -/
theorem WFNode_insertNode : ∀ (n : TrieNode V), WFNode n → ∀ (o : List Nat) (v : V),
    WFNode (insertNode n o v).2
  | .mk w cs, hw, [], v => WFNode.mk (some v) cs hw.sorted hw.childWF
  | .mk w cs, hw, k :: ks, v => by
    refine WFNode.mk _ _ (insertChild_sorted _ k cs hw.sorted) ?_
    intro e he
    rcases insertChild_mem_cases _ k cs e he with h | ⟨_, h | ⟨c, hc, hrw⟩⟩
    · exact hw.childWF e h
    · exact h ▸ WFNode_insertNode TrieNode.empty WFNode_empty ks v
    · exact hrw ▸ WFNode_insertNode c (hw.childWF (k, c) hc) ks v

theorem nonTrivial_iff (n : TrieNode V) :
    n.nonTrivial ↔ n ≠ TrieNode.mk none [] := by
  cases n with
  | mk v cs =>
    cases v <;> cases cs <;> simp [TrieNode.nonTrivial]

/-- The node an insertion produces is never trivial. -/
theorem insertNode_nonTrivial : ∀ (n : TrieNode V) (o : List Nat) (v : V),
    (insertNode n o v).2.nonTrivial
  | .mk w cs, [], v => Or.inl rfl
  | .mk w cs, k :: ks, v => by
    refine Or.inr ?_
    show (insertChild (fun c => insertNode c ks v) k cs).2 ≠ []
    cases cs with
    | nil => simp [insertChild]
    | cons p rest =>
      obtain ⟨k', c⟩ := p
      by_cases h1 : k < k'
      · simp [insertChild, h1]
      · by_cases h2 : k = k'
        · subst h2; simp [insertChild, h1]
        · simp [insertChild, h1, h2]

theorem Pruned_empty : Pruned (TrieNode.empty : TrieNode V) :=
  Pruned.mk none [] (by simp) (by simp)

theorem Pruned.childNT {v : Option V} {cs : List (Nat × TrieNode V)}
    (h : Pruned (.mk v cs)) : ∀ p ∈ cs, (p.2).nonTrivial := by
  cases h; assumption

theorem Pruned.childPruned {v : Option V} {cs : List (Nat × TrieNode V)}
    (h : Pruned (.mk v cs)) : ∀ p ∈ cs, Pruned p.2 := by
  cases h; assumption

/-- Rust `insert` preserves the pruning invariant. -/
theorem Pruned_insertNode : ∀ (n : TrieNode V), Pruned n → ∀ (o : List Nat) (v : V),
    Pruned (insertNode n o v).2
  | .mk w cs, hp, [], v => Pruned.mk (some v) cs hp.childNT hp.childPruned
  | .mk w cs, hp, k :: ks, v => by
    refine Pruned.mk _ _ ?_ ?_
    · intro e he
      rcases insertChild_mem_cases _ k cs e he with h | ⟨_, h | ⟨c, hc, hrw⟩⟩
      · exact hp.childNT e h
      · exact h ▸ insertNode_nonTrivial TrieNode.empty ks v
      · exact hrw ▸ insertNode_nonTrivial c ks v
    · intro e he
      rcases insertChild_mem_cases _ k cs e he with h | ⟨_, h | ⟨c, hc, hrw⟩⟩
      · exact hp.childPruned e h
      · exact h ▸ Pruned_insertNode TrieNode.empty Pruned_empty ks v
      · exact hrw ▸ Pruned_insertNode c (hp.childPruned (k, c) hc) ks v

/-- Case analysis of membership in the child map after `updateChild`: either an
untouched entry, or the rewritten child, which was kept only because it is
still non-trivial. -/
theorem updateChild_mem_cases (f : TrieNode V → Option V × TrieNode V) (k : Nat) :
    ∀ (cs : List (Nat × TrieNode V)) (e : Nat × TrieNode V), e ∈ (updateChild f k cs).2 →
      e ∈ cs ∨ (e.1 = k ∧ ∃ c, (k, c) ∈ cs ∧ e.2 = (f c).2 ∧ e.2 ≠ TrieNode.mk none [])
  | [], e, he => by simp [updateChild] at he
  | (k', c) :: rest, e, he => by
    by_cases h : k = k'
    · subst h
      cases hfc : f c with
      | mk val c2 =>
        rw [updateChild, if_pos rfl, hfc] at he
        cases c2 with
        | mk cv ccs =>
          cases cv with
          | none =>
            cases ccs with
            | nil => exact Or.inl (by simp [he])
            | cons q qs =>
              simp only [List.mem_cons] at he
              rcases he with rfl | he
              · exact Or.inr ⟨rfl, c, by simp [hfc]⟩
              · exact Or.inl (by simp [he])
          | some x =>
            simp only [List.mem_cons] at he
            rcases he with rfl | he
            · exact Or.inr ⟨rfl, c, by simp [hfc]⟩
            · exact Or.inl (by simp [he])
    · rw [updateChild, if_neg h] at he
      simp only [List.mem_cons] at he
      rcases he with rfl | he
      · exact Or.inl (by simp)
      · rcases updateChild_mem_cases f k rest e he with h2 | ⟨hk, c', hc', hrw, hnt⟩
        · exact Or.inl (by simp [h2])
        · exact Or.inr ⟨hk, c', by simp [hc'], hrw, hnt⟩

/-- Rust `remove` preserves the pruning invariant. -/
theorem Pruned_removeRec : ∀ (n : TrieNode V), Pruned n → ∀ o : List Nat,
    Pruned (removeRec n o).2
  | .mk w cs, hp, [] => Pruned.mk none cs hp.childNT hp.childPruned
  | .mk w cs, hp, k :: ks => by
    refine Pruned.mk _ _ ?_ ?_
    · intro e he
      rcases updateChild_mem_cases _ k cs e he with h | ⟨_, c, hc, hrw, hnt⟩
      · exact hp.childNT e h
      · exact (nonTrivial_iff e.2).2 hnt
    · intro e he
      rcases updateChild_mem_cases _ k cs e he with h | ⟨_, c, hc, hrw, hnt⟩
      · exact hp.childPruned e h
      · exact hrw ▸ Pruned_removeRec c (hp.childPruned (k, c) hc) ks

/-! ## Lemmas about `entries` (the `iter` output) -/

@[simp] theorem entries_mk (v : Option V) (cs : List (Nat × TrieNode V)) :
    entries (.mk v cs) =
      (match v with
       | some x => [(([] : List Nat), x)]
       | none => []) ++ entriesList cs := rfl

@[simp] theorem entriesList_nil : entriesList ([] : List (Nat × TrieNode V)) = [] := rfl

@[simp] theorem entriesList_cons (k : Nat) (c : TrieNode V) (rest : List (Nat × TrieNode V)) :
    entriesList ((k, c) :: rest) =
      (entries c).map (fun pv => (k :: pv.1, pv.2)) ++ entriesList rest := rfl

theorem entries_empty : entries (TrieNode.empty : TrieNode V) = [] := rfl

/-- Every entry below a child map has a nonempty key headed by a child's key. -/
theorem entriesList_key_shape : ∀ (cs : List (Nat × TrieNode V)), ∀ e ∈ entriesList cs,
    ∃ k p', e.1 = k :: p' ∧ k ∈ cs.map Prod.fst := by
  intro cs e he
  induction cs with
  | nil => simp at he
  | cons q rest ih =>
    obtain ⟨k, c⟩ := q
    simp only [entriesList_cons, List.mem_append, List.mem_map] at he
    rcases he with ⟨pv, _, rfl⟩ | he
    · exact ⟨k, pv.1, rfl, by simp⟩
    · obtain ⟨k', p', hk, hmem⟩ := ih he
      exact ⟨k', p', hk, by simp [hmem]⟩

/-- Number of stored entries after `insert`: up by one exactly when the slot
was previously empty. -/
theorem entries_len_insertNode : ∀ (n : TrieNode V), WFNode n → ∀ (o : List Nat) (v : V),
    (entries (insertNode n o v).2).length =
      (entries n).length + (if (getNode n o).isSome then 0 else 1)
  | .mk w cs, hw, [], v => by cases w <;> simp [insertNode, getNode]
  | .mk w cs, hw, k :: ks, v => by
    have key : ∀ (cs' : List (Nat × TrieNode V)),
        List.Pairwise (fun a b => a.1 < b.1) cs' → (∀ p ∈ cs', WFNode p.2) →
        (entriesList (insertChild (fun c => insertNode c ks v) k cs').2).length =
          (entriesList cs').length +
            (if (match lookupChild k cs' with
                 | some c => getNode c ks
                 | none => none).isSome then 0 else 1) := by
      intro cs'
      induction cs' with
      | nil =>
        intro _ _
        have h1 := entries_len_insertNode TrieNode.empty WFNode_empty ks v
        simp [insertChild, lookupChild, getNode_empty ks, entries_empty] at h1 ⊢
        omega
      | cons q rest ih =>
        obtain ⟨k', c⟩ := q
        intro hs hall
        by_cases h1 : k < k'
        · have hrest : lookupChild k rest = none := by
            refine lookupChild_eq_none (fun e he => ?_)
            have := (List.pairwise_cons.1 hs).1 e he
            omega
          have h2 := entries_len_insertNode TrieNode.empty WFNode_empty ks v
          have hne : k ≠ k' := Nat.ne_of_lt h1
          simp [insertChild, lookupChild, h1, hne, hrest, getNode_empty ks,
            entries_empty] at h2 ⊢
          omega
        · by_cases h2 : k = k'
          · subst h2
            have h3 := entries_len_insertNode c
              (hall (k, c) (by simp)) ks v
            simp [insertChild, lookupChild, h1] at h3 ⊢
            omega
          · have h3 := ih (List.pairwise_cons.1 hs).2
              (fun p hp => hall p (by simp [hp]))
            simp [insertChild, lookupChild, h1, h2] at h3 ⊢
            omega
    have := key cs hw.sorted hw.childWF
    simp only [insertNode, entries_mk, getNode, List.length_append]
    cases w <;> simpa using by omega

/-- Number of stored entries after `remove`: down by one exactly when a value
was taken. -/
theorem entries_len_removeRec : ∀ (n : TrieNode V), WFNode n → ∀ o : List Nat,
    (entries (removeRec n o).2).length + (if (getNode n o).isSome then 1 else 0) =
      (entries n).length
  | .mk w cs, hw, [] => by cases w <;> simp [removeRec, getNode]
  | .mk w cs, hw, k :: ks => by
    have key : ∀ (cs' : List (Nat × TrieNode V)),
        List.Pairwise (fun a b => a.1 < b.1) cs' → (∀ p ∈ cs', WFNode p.2) →
        (entriesList (updateChild (fun c => removeRec c ks) k cs').2).length +
            (if (match lookupChild k cs' with
                 | some c => getNode c ks
                 | none => none).isSome then 1 else 0) =
          (entriesList cs').length := by
      intro cs'
      induction cs' with
      | nil => intro _ _; simp [updateChild, lookupChild]
      | cons q rest ih =>
        obtain ⟨k', c⟩ := q
        intro hs hall
        by_cases h1 : k = k'
        · subst h1
          have h3 := entries_len_removeRec c (hall (k, c) (by simp)) ks
          cases hrc : removeRec c ks with
          | mk val c2 =>
            cases c2 with
            | mk cv ccs =>
              cases cv <;> cases ccs <;>
                (simp [updateChild, lookupChild, hrc] at h3 ⊢; omega)
        · have h3 := ih (List.pairwise_cons.1 hs).2
            (fun p hp => hall p (by simp [hp]))
          simp [updateChild, lookupChild, h1] at h3 ⊢
          omega
    have := key cs hw.sorted hw.childWF
    simp only [removeRec, entries_mk, getNode, List.length_append]
    cases w <;> simpa using by omega

/-- Membership in the entries of a sorted child map, phrased via `lookupChild`. -/
theorem entriesList_mem_iff {k : Nat} {ks : List Nat} {v : V} :
    ∀ cs : List (Nat × TrieNode V), List.Pairwise (fun a b => a.1 < b.1) cs →
      ((k :: ks, v) ∈ entriesList cs ↔
        ∃ c, lookupChild k cs = some c ∧ (ks, v) ∈ entries c)
  | [], _ => by simp [lookupChild]
  | (k', c) :: rest, hs => by
    by_cases h : k = k'
    · subst h
      have hrest : lookupChild k rest = none := by
        refine lookupChild_eq_none (fun e he => ?_)
        have := (List.pairwise_cons.1 hs).1 e he
        omega
      constructor
      · intro hmem
        simp only [entriesList_cons, List.mem_append, List.mem_map] at hmem
        rcases hmem with ⟨⟨p1, v1⟩, hpv, heq⟩ | hmem
        · simp only [Prod.mk.injEq, List.cons.injEq] at heq
          obtain ⟨⟨-, rfl⟩, rfl⟩ := heq
          exact ⟨c, by simp [lookupChild], hpv⟩
        · obtain ⟨k2, p2, hk2, hmem2⟩ := entriesList_key_shape rest _ hmem
          obtain ⟨rfl⟩ := List.cons.inj hk2
          exact absurd hmem2 (by
            intro hmem3
            simp only [List.mem_map] at hmem3
            obtain ⟨e, he, hek⟩ := hmem3
            have := (List.pairwise_cons.1 hs).1 e he
            omega)
      · rintro ⟨c', hc', hmem⟩
        simp only [lookupChild, if_pos rfl] at hc'
        obtain rfl := Option.some.inj hc'
        simp only [entriesList_cons, List.mem_append, List.mem_map]
        exact Or.inl ⟨(ks, v), hmem, rfl⟩
    · rw [entriesList_cons]
      simp only [List.mem_append, List.mem_map, lookupChild, if_neg h]
      rw [← entriesList_mem_iff rest (List.pairwise_cons.1 hs).2]
      constructor
      · rintro (⟨pv, hpv, heq⟩ | hmem)
        · obtain ⟨h1, _⟩ := Prod.mk.injEq .. ▸ heq
          exact absurd (List.cons.inj h1).1 (fun hh => h hh.symm)
        · exact hmem
      · intro hmem
        exact Or.inr hmem

/-- Stored entries are exactly successful `get`s (on a well-formed trie). -/
theorem entries_mem : ∀ (o : List Nat) (n : TrieNode V), WFNode n → ∀ v : V,
    ((o, v) ∈ entries n ↔ getNode n o = some v)
  | [], .mk w cs, hw, v => by
    simp only [entries_mk, List.mem_append, getNode, TrieNode.value_mk]
    have hshape : (([] : List Nat), v) ∉ entriesList cs := by
      intro h
      obtain ⟨k, p', hk, _⟩ := entriesList_key_shape cs _ h
      simp at hk
    cases w with
    | none => simp [hshape]
    | some x =>
      constructor
      · rintro (h | h)
        · simp only [List.mem_singleton, Prod.mk.injEq] at h
          rw [h.2]
        · exact absurd h hshape
      · intro h
        simp only [Option.some.injEq] at h
        subst h
        exact Or.inl (by simp)
  | k :: ks, .mk w cs, hw, v => by
    simp only [entries_mk, List.mem_append, getNode]
    rw [entriesList_mem_iff cs hw.sorted]
    constructor
    · intro h
      rcases h with h | ⟨c, hc, hmem⟩
      · cases w <;> simp at h
      · rw [hc]
        exact (entries_mem ks c (WFNode_of_lookupChild hw.childWF hc) v).1 hmem
    · intro h
      cases hc : lookupChild k cs with
      | none => rw [hc] at h; simp at h
      | some c =>
        rw [hc] at h
        exact Or.inr ⟨c, rfl,
          (entries_mem ks c (WFNode_of_lookupChild hw.childWF hc) v).2 h⟩

theorem oidLt_cons_self (k : Nat) (as bs : List Nat) :
    oidLt (k :: as) (k :: bs) = oidLt as bs := by
  simp [oidLt_cons]

/-- The entries of a sorted child map are strictly ascending, given that each
child's own entries are. -/
theorem entriesList_sorted : ∀ cs : List (Nat × TrieNode V),
    List.Pairwise (fun a b => a.1 < b.1) cs →
    (∀ p ∈ cs, List.Pairwise (fun (a b : List Nat × V) => oidLt a.1 b.1 = true)
      (entries p.2)) →
    List.Pairwise (fun (a b : List Nat × V) => oidLt a.1 b.1 = true) (entriesList cs)
  | [], _, _ => by simp
  | (k, c) :: rest, hs, hall => by
    obtain ⟨hhead, hrest⟩ := List.pairwise_cons.1 hs
    rw [entriesList_cons]
    refine List.pairwise_append.2 ⟨?_, ?_, ?_⟩
    · rw [List.pairwise_map]
      refine (hall (k, c) (by simp)).imp ?_
      intro a b hab
      simpa [oidLt_cons_self] using hab
    · exact entriesList_sorted rest hrest (fun p hp => hall p (by simp [hp]))
    · intro a ha b hb
      simp only [List.mem_map] at ha
      obtain ⟨pv, _, rfl⟩ := ha
      obtain ⟨k2, p2, hk2, hmem2⟩ := entriesList_key_shape rest b hb
      simp only [List.mem_map] at hmem2
      obtain ⟨e, he, hek⟩ := hmem2
      have hlt : k < k2 := hek ▸ hhead e he
      rw [hk2]
      simp [oidLt_cons, hlt]

/-- The iterator output is strictly ascending in the §3 order. -/
theorem entries_sorted : ∀ (n : TrieNode V), WFNode n →
    List.Pairwise (fun (a b : List Nat × V) => oidLt a.1 b.1 = true) (entries n) := by
  intro n
  induction n using TrieNode.ind with
  | h v cs ih =>
    intro hw
    have hlist := entriesList_sorted cs hw.sorted
      (fun p hp => ih p hp (hw.childWF p hp))
    rw [entries_mk]
    refine List.pairwise_append.2 ⟨?_, hlist, ?_⟩
    · cases v <;> simp
    · intro a ha b hb
      cases v with
      | none => simp at ha
      | some x =>
        simp only [List.mem_singleton] at ha
        subst ha
        obtain ⟨k2, p2, hk2, _⟩ := entriesList_key_shape cs b hb
        rw [hk2]
        simp

/-! ## `first_in_subtree` and `find_next` against the entry list -/

/-- Rust `first_in_subtree` returns exactly the first emitted entry of the subtree. -/
theorem firstInSubtree_eq_head (n : TrieNode V) :
    firstInSubtree n = (entries n).head? := by
  induction n using TrieNode.ind with
  | h v cs ih =>
    cases v with
    | some x => simp [firstInSubtree, entries]
    | none =>
      simp only [firstInSubtree, entries_mk, List.nil_append]
      induction cs with
      | nil => simp [firstInList]
      | cons p rest ihl =>
        obtain ⟨k, c⟩ := p
        rw [firstInList, entriesList_cons]
        rw [ih ⟨k, c⟩ (by simp)]
        cases hc : entries c with
        | nil => simp [hc, ihl (fun q hq => ih q (by simp [hq]))]
        | cons e es => simp [hc]

/-- The child loop of `first_in_subtree` returns the first entry below the
child map. -/
theorem firstInList_eq_head : ∀ cs : List (Nat × TrieNode V),
    firstInList cs = (entriesList cs).head?
  | [] => rfl
  | (k, c) :: rest => by
    rw [firstInList, firstInSubtree_eq_head c, entriesList_cons]
    cases hc : entries c with
    | nil => simp [firstInList_eq_head rest]
    | cons e es => simp

theorem find?_eq_head?_of_forall {α : Type} (p : α → Bool) (l : List α)
    (h : ∀ x ∈ l, p x = true) : l.find? p = l.head? := by
  cases l with
  | nil => rfl
  | cons a as => simp [List.find?_cons, h a (by simp)]

/-- The `range(target_part..)` loop of `find_next` computes the first entry of
the child map strictly above the target. -/
theorem findNextChildren_eq (t : Nat) (ts : List Nat)
    (fn : TrieNode V → Option (List Nat × V))
    (hfn : ∀ c, fn c = (entries c).find? (fun e => oidLt ts e.1)) :
    ∀ cs : List (Nat × TrieNode V),
      findNextChildren fn t cs =
        (entriesList cs).find? (fun e => oidLt (t :: ts) e.1)
  | [] => rfl
  | (k, c) :: rest => by
    rw [findNextChildren, entriesList_cons, List.find?_append, List.find?_map]
    by_cases h1 : k < t
    · have hblock : (entries c).find?
          ((fun e => oidLt (t :: ts) e.1) ∘ fun pv => (k :: pv.1, pv.2)) = none := by
        refine List.find?_eq_none.2 (fun e he => ?_)
        have h2 : ¬ t < k := by omega
        have h3 : ¬ t = k := by omega
        simp [oidLt_cons, h2, h3]
      rw [if_pos h1, hblock]
      simp [findNextChildren_eq t ts fn hfn rest]
    · by_cases h2 : k = t
      · subst h2
        have hblock : (entries c).find?
            ((fun e => oidLt (k :: ts) e.1) ∘ fun pv => (k :: pv.1, pv.2)) =
              (entries c).find? (fun e => oidLt ts e.1) := by
          congr 1
          funext e
          simp [oidLt_cons]
        rw [if_neg h1, if_pos rfl, hblock, ← hfn c]
        cases hfc : fn c with
        | some pv => obtain ⟨p, v⟩ := pv; simp
        | none => simp [findNextChildren_eq k ts fn hfn rest]
      · have h3 : t < k := by omega
        have hblock : (entries c).find?
            ((fun e => oidLt (t :: ts) e.1) ∘ fun pv => (k :: pv.1, pv.2)) =
              (entries c).head? := by
          refine find?_eq_head?_of_forall _ _ (fun e he => ?_)
          simp [oidLt_cons, h3]
        rw [if_neg h1, if_neg h2, hblock, ← firstInSubtree_eq_head c]
        cases hfc : firstInSubtree c with
        | some pv => obtain ⟨p, v⟩ := pv; simp
        | none => simp [findNextChildren_eq t ts fn hfn rest]

/-- Rust `find_next` returns the first emitted entry whose OID is strictly greater
than the query, for any trie shape. -/
theorem findNext_eq : ∀ (q : List Nat) (n : TrieNode V),
    findNext n q = (entries n).find? (fun e => oidLt q e.1)
  | [], .mk v cs => by
    have hlist : (entriesList cs).find? (fun e => oidLt [] e.1) =
        (entriesList cs).head? := by
      refine find?_eq_head?_of_forall _ _ (fun e he => ?_)
      obtain ⟨k, p', hk, _⟩ := entriesList_key_shape cs e he
      simp [hk]
    show firstInList cs = _
    rw [firstInList_eq_head cs, entries_mk]
    cases v with
    | none => simp [hlist]
    | some x => simp [List.find?_cons, hlist]
  | t :: ts, .mk v cs => by
    show findNextChildren (fun c => findNext c ts) t cs = _
    rw [findNextChildren_eq t ts _ (fun c => findNext_eq ts c) cs, entries_mk]
    cases v with
    | none => simp
    | some x => simp [List.find?_cons]

/-- On a strictly ascending list, the first match of `find?` is minimal among
all matches. -/
theorem find?_min_of_sorted : ∀ {l : List (List Nat × V)},
    List.Pairwise (fun (a b : List Nat × V) => oidLt a.1 b.1 = true) l →
    ∀ {p : List Nat × V → Bool} {e : List Nat × V}, l.find? p = some e →
      ∀ e' ∈ l, p e' = true → e = e' ∨ oidLt e.1 e'.1 = true
  | [], _, _, _, h, _, he', _ => by simp at he'
  | a :: as, hs, p, e, h, e', he', hp' => by
    rw [List.find?_cons] at h
    cases hpa : p a with
    | true =>
      rw [hpa] at h
      simp only [Option.some.injEq] at h
      subst h
      simp only [List.mem_cons] at he'
      rcases he' with rfl | he'
      · exact Or.inl rfl
      · exact Or.inr ((List.pairwise_cons.1 hs).1 e' he')
    | false =>
      rw [hpa] at h
      simp only [List.mem_cons] at he'
      rcases he' with rfl | he'
      · rw [hpa] at hp'; exact absurd hp' (by simp)
      · exact find?_min_of_sorted (List.pairwise_cons.1 hs).2 h e' he' hp'

/-! ## The reachable-trie invariant -/

/-- Invariant enjoyed by every reachable trie: sorted well-formed child maps,
no value at the root (OIDs are nonempty), pruned interior, and a length
counter in sync with the number of stored entries. -/
def Inv (T : OidTrie V) : Prop :=
  WFNode T.root ∧ T.root.value = none ∧ Pruned T.root ∧
    T.len = (entries T.root).length

theorem insertNode_root_value (n : TrieNode V) (k : Nat) (ks : List Nat) (v : V) :
    ((insertNode n (k :: ks) v).2).value = n.value := by
  cases n; rfl

theorem removeRec_root_value (n : TrieNode V) (k : Nat) (ks : List Nat) :
    ((removeRec n (k :: ks)).2).value = n.value := by
  cases n; rfl

theorem Inv_new : Inv (OidTrie.new : OidTrie V) :=
  ⟨WFNode_empty, rfl, Pruned_empty, rfl⟩

theorem Inv_clear (T : OidTrie V) : Inv T.clear :=
  ⟨WFNode_empty, rfl, Pruned_empty, rfl⟩

theorem Inv_insert {T : OidTrie V} (h : Inv T) (o : List Nat) (v : V) (ho : o ≠ []) :
    Inv (T.insert o v).1 := by
  obtain ⟨hw, hv, hp, hl⟩ := h
  obtain ⟨k, ks⟩ := (List.exists_cons_of_ne_nil ho)
  obtain ⟨ks', rfl⟩ := ks
  refine ⟨WFNode_insertNode T.root hw _ v, ?_, Pruned_insertNode T.root hp _ v, ?_⟩
  · rw [OidTrie.insert]
    simpa [insertNode_root_value] using hv
  · show (if (insertNode T.root (k :: ks') v).1.isNone then T.len + 1 else T.len) =
      (entries (insertNode T.root (k :: ks') v).2).length
    rw [insertNode_old T.root hw, entries_len_insertNode T.root hw]
    cases hg : getNode T.root (k :: ks') <;> simp [hl]

theorem Inv_remove {T : OidTrie V} (h : Inv T) (o : List Nat) (ho : o ≠ []) :
    Inv (T.remove o).1 := by
  obtain ⟨hw, hv, hp, hl⟩ := h
  obtain ⟨k, ks⟩ := (List.exists_cons_of_ne_nil ho)
  obtain ⟨ks', rfl⟩ := ks
  refine ⟨WFNode_removeRec T.root hw _, ?_, Pruned_removeRec T.root hp _, ?_⟩
  · rw [OidTrie.remove]
    simpa [removeRec_root_value] using hv
  · show (if (removeRec T.root (k :: ks')).1.isSome then T.len - 1 else T.len) =
      (entries (removeRec T.root (k :: ks')).2).length
    rw [removeRec_val T.root]
    have := entries_len_removeRec T.root hw (k :: ks')
    cases hg : getNode T.root (k :: ks') <;> simp [hg, hl] at this ⊢ <;> omega

/-- Every reachable trie satisfies the invariant. -/
theorem Reachable_inv {T : OidTrie V} (h : Reachable T) : Inv T := by
  induction h with
  | new => exact Inv_new
  | insert o v _ ho ih => exact Inv_insert ih o v ho
  | remove o _ ho ih => exact Inv_remove ih o ho
  | clear _ ih => exact Inv_clear _

/-! ## Analysis of `longest_prefix` -/

/-- Proof-side recursion computing the depth of the deepest valued node on the
descent path of `longest_prefix`, together with its value (depth relative to
the current node). -/
def bestIn : TrieNode V → List Nat → Option (Nat × V)
  | n, [] => n.value.map (fun v => (0, v))
  | n, p :: ps =>
    match lookupChild p n.children with
    | some c =>
      match bestIn c ps with
      | some jv => some (jv.1 + 1, jv.2)
      | none => n.value.map (fun v => (0, v))
    | none => n.value.map (fun v => (0, v))

theorem getNode_nil (n : TrieNode V) : getNode n [] = n.value := by
  cases n; rfl

theorem getNode_cons (n : TrieNode V) (k : Nat) (ks : List Nat) :
    getNode n (k :: ks) =
      match lookupChild k n.children with
      | some c => getNode c ks
      | none => none := by
  cases n; rfl

/-- The `longest_prefix` loop computes `bestIn`, offset by the starting depth,
falling back to the incoming `last` match. -/
theorem lpAux_eq : ∀ (parts : List Nat) (n : TrieNode V) (d : Nat)
    (last : Option (Nat × V)),
    longestPfxAux n parts d last =
      match bestIn n parts with
      | some jv => some (d + jv.1, jv.2)
      | none => last
  | [], n, d, last => by
    cases hv : n.value <;> simp [longestPfxAux, bestIn, hv]
  | p :: ps, n, d, last => by
    cases hc : lookupChild p n.children with
    | some c =>
      cases hb : bestIn c ps with
      | some jv =>
        simp [longestPfxAux, bestIn, hc, hb, lpAux_eq ps c (d + 1)]
        omega
      | none =>
        cases hv : n.value <;>
          simp [longestPfxAux, bestIn, hc, hb, hv, lpAux_eq ps c (d + 1)]
    | none =>
      cases hv : n.value <;> simp [longestPfxAux, bestIn, hc, hv]

theorem bestIn_get : ∀ (parts : List Nat) (n : TrieNode V) (j : Nat) (v : V),
    bestIn n parts = some (j, v) →
      j ≤ parts.length ∧ getNode n (parts.take j) = some v
  | [], n, j, v => by
    cases hv : n.value with
    | none => simp [bestIn, hv]
    | some x =>
      intro h
      simp only [bestIn, hv, Option.map_some, Option.some.injEq, Prod.mk.injEq] at h
      obtain ⟨rfl, rfl⟩ := h
      simp [getNode_nil, hv]
  | p :: ps, n, j, v => by
    cases hc : lookupChild p n.children with
    | some c =>
      cases hb : bestIn c ps with
      | some jv =>
        intro h
        simp only [bestIn, hc, hb, Option.some.injEq, Prod.mk.injEq] at h
        obtain ⟨rfl, rfl⟩ := h
        obtain ⟨h1, h2⟩ := bestIn_get ps c jv.1 jv.2 hb
        exact ⟨by simpa using h1, by simp [getNode_cons, hc, h2]⟩
      | none =>
        cases hv : n.value with
        | none => simp [bestIn, hc, hb, hv]
        | some x =>
          intro h
          simp only [bestIn, hc, hb, hv, Option.map_some, Option.some.injEq,
            Prod.mk.injEq] at h
          obtain ⟨rfl, rfl⟩ := h
          simp [getNode_nil, hv]
    | none =>
      cases hv : n.value with
      | none => simp [bestIn, hc, hv]
      | some x =>
        intro h
        simp only [bestIn, hc, hv, Option.map_some, Option.some.injEq,
          Prod.mk.injEq] at h
        obtain ⟨rfl, rfl⟩ := h
        simp [getNode_nil, hv]

theorem bestIn_none : ∀ (parts : List Nat) (n : TrieNode V),
    bestIn n parts = none → ∀ j ≤ parts.length, getNode n (parts.take j) = none
  | [], n => by
    intro h j hj
    have hj0 : j = 0 := by simpa using hj
    subst hj0
    cases hv : n.value with
    | none => simp [getNode_nil, hv]
    | some x => simp [bestIn, hv] at h
  | p :: ps, n => by
    cases hc : lookupChild p n.children with
    | some c =>
      cases hb : bestIn c ps with
      | some jv => simp [bestIn, hc, hb]
      | none =>
        intro h j hj
        cases j with
        | zero =>
          cases hv : n.value with
          | none => simp [getNode_nil, hv]
          | some x => simp [bestIn, hc, hb, hv] at h
        | succ j' =>
          have := bestIn_none ps c hb j' (by simpa using hj)
          simp [getNode_cons, hc, this]
    | none =>
      intro h j hj
      cases j with
      | zero =>
        cases hv : n.value with
        | none => simp [getNode_nil, hv]
        | some x => simp [bestIn, hc, hv] at h
      | succ j' => simp [getNode_cons, hc]

theorem bestIn_max : ∀ (parts : List Nat) (n : TrieNode V) (j : Nat) (v : V),
    bestIn n parts = some (j, v) →
      ∀ j' ≤ parts.length, (getNode n (parts.take j')).isSome = true → j' ≤ j
  | [], n, j, v => by
    intro _ j' hj' _
    simp only [List.length_nil] at hj'
    omega
  | p :: ps, n, j, v => by
    cases hc : lookupChild p n.children with
    | some c =>
      cases hb : bestIn c ps with
      | some jv =>
        intro h j' hj' hg
        simp only [bestIn, hc, hb, Option.some.injEq, Prod.mk.injEq] at h
        obtain ⟨rfl, rfl⟩ := h
        cases j' with
        | zero => omega
        | succ j'' =>
          have hg2 : (getNode c (ps.take j'')).isSome = true := by
            simpa [getNode_cons, hc] using hg
          have := bestIn_max ps c jv.1 jv.2 hb j'' (by simpa using hj') hg2
          omega
      | none =>
        cases hv : n.value with
        | none => simp [bestIn, hc, hb, hv]
        | some x =>
          intro h j' hj' hg
          simp only [bestIn, hc, hb, hv, Option.map_some, Option.some.injEq,
            Prod.mk.injEq] at h
          obtain ⟨rfl, rfl⟩ := h
          cases j' with
          | zero => omega
          | succ j'' =>
            exfalso
            have hnone := bestIn_none ps c hb j'' (by simpa using hj')
            simp [getNode_cons, hc, hnone] at hg
    | none =>
      cases hv : n.value with
      | none => simp [bestIn, hc, hv]
      | some x =>
        intro h j' hj' hg
        simp only [bestIn, hc, hv, Option.map_some, Option.some.injEq,
          Prod.mk.injEq] at h
        obtain ⟨rfl, rfl⟩ := h
        cases j' with
        | zero => omega
        | succ j'' =>
          exfalso
          simp [getNode_cons, hc] at hg

theorem listPfx_take (x : List Nat) (j : Nat) : listPfx (x.take j) x = true :=
  (listPfx_iff _ _).2 ⟨x.drop j, List.take_append_drop j x⟩

theorem listPfx_take_eq {o x : List Nat} (h : listPfx o x = true) :
    x.take o.length = o ∧ o.length ≤ x.length := by
  obtain ⟨s, rfl⟩ := (listPfx_iff o x).1 h
  exact ⟨List.take_left o s, by simp⟩

theorem mem_keysOf_iff {T : OidTrie V} (hw : WFNode T.root) (o : List Nat) :
    o ∈ T.keysOf ↔ ∃ v, T.get o = some v := by
  simp only [OidTrie.keysOf, OidTrie.iter, List.mem_map]
  constructor
  · rintro ⟨⟨o', v⟩, hmem, rfl⟩
    exact ⟨v, (entries_mem o' T.root hw v).1 hmem⟩
  · rintro ⟨v, hget⟩
    exact ⟨(o, v), (entries_mem o T.root hw v).2 hget, rfl⟩

/-! ## Sample tries used by the witnesses -/

/-- The walk of spec scenario 4: four leaves under `1.3.6.1`. -/
def exTrie : OidTrie Nat :=
  ((((OidTrie.new.insert [1, 3, 6, 1, 1] 11).1.insert [1, 3, 6, 1, 2] 12).1.insert
      [1, 3, 6, 1, 3] 13).1.insert [1, 3, 6, 1, 4] 14).1

theorem exTrie_reachable : Reachable exTrie :=
  Reachable.insert _ _
    (Reachable.insert _ _
      (Reachable.insert _ _
        (Reachable.insert _ _ Reachable.new (by simp)) (by simp)) (by simp))
    (by simp)

/-- The parent/child pair of spec scenario 5. -/
def exTrie2 : OidTrie Nat :=
  ((OidTrie.new.insert [1, 3, 6, 1] 1).1.insert [1, 3, 6, 1, 1] 2).1

theorem exTrie2_reachable : Reachable exTrie2 :=
  Reachable.insert _ _
    (Reachable.insert _ _ Reachable.new (by simp)) (by simp)

/-- The registration pair of spec scenario 6. -/
def exTrie3 : OidTrie Nat :=
  ((OidTrie.new.insert [1, 3, 6] 100).1.insert [1, 3, 6, 1, 4] 200).1

theorem exTrie3_reachable : Reachable exTrie3 :=
  Reachable.insert _ _
    (Reachable.insert _ _ Reachable.new (by simp)) (by simp)

/-- A one-entry trie. -/
def exTrie1 : OidTrie Nat := (OidTrie.new.insert [1] 10).1

theorem exTrie1_reachable : Reachable exTrie1 :=
  Reachable.insert _ _ Reachable.new (by simp)

/-! ## Claim theorems: the OID trie -/

/-- C1: for every reachable trie with stored-OID set `keysOf` and every query
`q`, `get_next(q)` returns the pair `(o, v)` with `o` the minimum element of
`{o ∈ S : o > q}` in the componentwise lexicographic order and `v` the value
stored at `o`, and returns `None` exactly when that set is empty. -/
theorem claim1_getNext_min {V : Type} (T : OidTrie V) (hR : Reachable T)
    (q : List Nat) :
    (∀ o v, T.getNext q = some (o, v) →
        o ∈ T.keysOf ∧ T.get o = some v ∧ oidLt q o = true ∧
          ∀ o' ∈ T.keysOf, oidLt q o' = true → o = o' ∨ oidLt o o' = true) ∧
    (T.getNext q = none ↔ ∀ o' ∈ T.keysOf, oidLt q o' = false) := by
  obtain ⟨hw, -, -, -⟩ := Reachable_inv hR
  have heq : T.getNext q = (entries T.root).find? (fun e => oidLt q e.1) :=
    findNext_eq q T.root
  constructor
  · intro o v hsome
    rw [heq] at hsome
    have hmem : (o, v) ∈ entries T.root := List.mem_of_find?_eq_some hsome
    have hpred : oidLt q o = true := by
      simpa using List.find?_some hsome
    refine ⟨List.mem_map.2 ⟨(o, v), hmem, rfl⟩,
      (entries_mem o T.root hw v).1 hmem, hpred, ?_⟩
    intro o' ho' hq'
    simp only [OidTrie.keysOf, OidTrie.iter, List.mem_map] at ho'
    obtain ⟨⟨o2, v2⟩, hmem2, rfl⟩ := ho'
    rcases find?_min_of_sorted (entries_sorted T.root hw) hsome (o2, v2) hmem2
        (by simpa using hq') with h | h
    · exact Or.inl (congrArg Prod.fst h)
    · exact Or.inr h
  · rw [heq, List.find?_eq_none]
    constructor
    · intro h o' ho'
      simp only [OidTrie.keysOf, OidTrie.iter, List.mem_map] at ho'
      obtain ⟨⟨o2, v2⟩, hmem2, rfl⟩ := ho'
      simpa using h (o2, v2) hmem2
    · intro h e he
      have := h e.1 (List.mem_map.2 ⟨e, he, rfl⟩)
      simp [this]

/-- Witness for C1 at a concrete reachable trie (the spec's scenario-4 walk),
checking the concrete `get_next` step by evaluation. -/
theorem claim1_witness :
    Reachable exTrie ∧
    exTrie.getNext [1, 3, 6, 1] = some ([1, 3, 6, 1, 1], 11) ∧
    exTrie.getNext [1, 3, 6, 1, 4] = none ∧
    ((∀ o v, exTrie.getNext [1, 3, 6, 1] = some (o, v) →
        o ∈ exTrie.keysOf ∧ exTrie.get o = some v ∧ oidLt [1, 3, 6, 1] o = true ∧
          ∀ o' ∈ exTrie.keysOf, oidLt [1, 3, 6, 1] o' = true →
            o = o' ∨ oidLt o o' = true) ∧
      (exTrie.getNext [1, 3, 6, 1] = none ↔
        ∀ o' ∈ exTrie.keysOf, oidLt [1, 3, 6, 1] o' = false)) :=
  ⟨exTrie_reachable, rfl, rfl, claim1_getNext_min exTrie exTrie_reachable [1, 3, 6, 1]⟩

/-- C4: for every reachable trie, `iter()` emits its pairs in strictly
ascending componentwise lexicographic OID order (hence a node's value before
its subtree and a subtree before later siblings), and emits exactly `len()`
pairs. -/
theorem claim4_iter_sorted_count {V : Type} (T : OidTrie V) (hR : Reachable T) :
    List.Chain' (fun (a b : List Nat × V) => oidLt a.1 b.1 = true) T.iter ∧
      T.iter.length = T.len := by
  obtain ⟨hw, -, -, hlen⟩ := Reachable_inv hR
  exact ⟨(entries_sorted T.root hw).chain', hlen.symm⟩

/-- Witness for C4 on the parent/child trie of spec scenario 5, checking the
emitted order by evaluation. -/
theorem claim4_witness :
    Reachable exTrie2 ∧
    exTrie2.iter = [([1, 3, 6, 1], 1), ([1, 3, 6, 1, 1], 2)] ∧
    exTrie2.len = 2 ∧
    (List.Chain' (fun (a b : List Nat × Nat) => oidLt a.1 b.1 = true) exTrie2.iter ∧
      exTrie2.iter.length = exTrie2.len) :=
  ⟨exTrie2_reachable, rfl, rfl, claim4_iter_sorted_count exTrie2 exTrie2_reachable⟩

/-- C7: every trie reachable from the empty trie by `insert` / `remove` /
`clear` satisfies the pruning invariant: every node except the root holds a
value or has at least one child (`Pruned` quantifies exactly over the strict
descendants of the root). -/
theorem claim7_pruned {V : Type} (T : OidTrie V) (hR : Reachable T) :
    Pruned T.root :=
  (Reachable_inv hR).2.2.1

/-- Witness for C7: after removing the only value on the path `1.2`, the
reachable trie is pruned back to an empty root (checked by evaluation). -/
theorem claim7_witness :
    Reachable (((OidTrie.new : OidTrie Nat).insert [1, 2] 5).1.remove [1, 2]).1 ∧
    (((OidTrie.new : OidTrie Nat).insert [1, 2] 5).1.remove [1, 2]).1.root.children = [] ∧
    Pruned (((OidTrie.new : OidTrie Nat).insert [1, 2] 5).1.remove [1, 2]).1.root :=
  ⟨Reachable.remove _ (Reachable.insert _ _ Reachable.new (by simp)) (by simp),
    rfl,
    claim7_pruned _ (Reachable.remove _ (Reachable.insert _ _ Reachable.new (by simp))
      (by simp))⟩

theorem ite_isNone_flip {α : Type} (x : Option α) (n : Nat) :
    (if x.isNone then n + 1 else n) = (if x.isSome then n else n + 1) := by
  cases x <;> simp

/-- C5: on a reachable trie, immediately after `insert(o, v)`: `get(o)` is
`Some(v)`, `contains(o)` holds, the length grew only if `o` was absent, and
`insert` returned the displaced value; after a subsequent `remove(o)`: `get(o)`
is `None`, the length dropped by one, and in general the counter decrements
iff a value was actually taken. -/
theorem claim5_insert_remove {V : Type} (T : OidTrie V) (hR : Reachable T)
    (o : List Nat) (v : V) (ho : o ≠ []) :
    (T.insert o v).2 = T.get o ∧
    (T.insert o v).1.get o = some v ∧
    (T.insert o v).1.contains o = true ∧
    (T.insert o v).1.len = (if T.contains o then T.len else T.len + 1) ∧
    ((T.insert o v).1.remove o).2 = some v ∧
    ((T.insert o v).1.remove o).1.get o = none ∧
    ((T.insert o v).1.remove o).1.len = (T.insert o v).1.len - 1 ∧
    (∀ o' : List Nat,
      (T.remove o').1.len = T.len - (if (T.get o').isSome then 1 else 0)) := by
  obtain ⟨hw, -, -, -⟩ := Reachable_inv hR
  have hw1 : WFNode (T.insert o v).1.root := WFNode_insertNode T.root hw o v
  have hget1 : (T.insert o v).1.get o = some v := getNode_insertNode_self T.root hw o v
  have hold : (T.insert o v).2 = T.get o := insertNode_old T.root hw o v
  refine ⟨hold, hget1, ?_, ?_, ?_, ?_, ?_, ?_⟩
  · simp [OidTrie.contains, hget1]
  · show (if (insertNode T.root o v).1.isNone then T.len + 1 else T.len) = _
    rw [insertNode_old T.root hw o v]
    simp only [OidTrie.contains, OidTrie.get]
    exact ite_isNone_flip (getNode T.root o) T.len
  · show (removeRec (T.insert o v).1.root o).1 = some v
    rw [removeRec_val]
    exact hget1
  · exact getNode_removeRec_self (T.insert o v).1.root hw1 o
  · show (if (removeRec (T.insert o v).1.root o).1.isSome then (T.insert o v).1.len - 1
        else (T.insert o v).1.len) = (T.insert o v).1.len - 1
    rw [removeRec_val]
    have : getNode (T.insert o v).1.root o = some v := hget1
    simp [this]
  · intro o'
    show (if (removeRec T.root o').1.isSome then T.len - 1 else T.len) = _
    rw [removeRec_val]
    show (if (T.get o').isSome then T.len - 1 else T.len) = _
    cases h : (T.get o').isSome <;> simp

/-- Witness for C5: inserting then removing `1.3.6.1.5` in the scenario-4
trie, with the concrete before/after facts checked by evaluation. -/
theorem claim5_witness :
    Reachable exTrie ∧ ([1, 3, 6, 1, 5] : List Nat) ≠ [] ∧
    exTrie.len = 4 ∧
    (exTrie.insert [1, 3, 6, 1, 5] 15).1.len = 5 ∧
    ((exTrie.insert [1, 3, 6, 1, 5] 15).1.remove [1, 3, 6, 1, 5]).1.len = 4 ∧
    ((exTrie.insert [1, 3, 6, 1, 5] 15).2 = exTrie.get [1, 3, 6, 1, 5] ∧
      (exTrie.insert [1, 3, 6, 1, 5] 15).1.get [1, 3, 6, 1, 5] = some 15 ∧
      (exTrie.insert [1, 3, 6, 1, 5] 15).1.contains [1, 3, 6, 1, 5] = true ∧
      (exTrie.insert [1, 3, 6, 1, 5] 15).1.len =
        (if exTrie.contains [1, 3, 6, 1, 5] then exTrie.len else exTrie.len + 1) ∧
      ((exTrie.insert [1, 3, 6, 1, 5] 15).1.remove [1, 3, 6, 1, 5]).2 = some 15 ∧
      ((exTrie.insert [1, 3, 6, 1, 5] 15).1.remove [1, 3, 6, 1, 5]).1.get
        [1, 3, 6, 1, 5] = none ∧
      ((exTrie.insert [1, 3, 6, 1, 5] 15).1.remove [1, 3, 6, 1, 5]).1.len =
        (exTrie.insert [1, 3, 6, 1, 5] 15).1.len - 1 ∧
      (∀ o' : List Nat, (exTrie.remove o').1.len =
        exTrie.len - (if (exTrie.get o').isSome then 1 else 0))) :=
  ⟨exTrie_reachable, by simp, rfl, rfl, rfl,
    claim5_insert_remove exTrie exTrie_reachable [1, 3, 6, 1, 5] 15 (by simp)⟩

/-- C6 as stated is false: in the walk-off case the deepest reached node's own
OID is a strict prefix of the query, hence strictly below it, and `get_next`
never returns it.  Here the trie stores only `1` (value 10) and the query is
`1.5`: descent walks off at the node `1`, that node holds a value, yet
`get_next` returns `None` rather than that value. -/
theorem claim6_counterexample :
    exTrie1.get [1] = some 10 ∧
    listPfx [1] [1, 5] = true ∧
    exTrie1.getNext [1, 5] = none :=
  ⟨rfl, rfl, rfl⟩

/-- C6 amended: `get_next` computes the first stored entry strictly past the
query in the iterator order — so in the walk-off case the answer is the first
value of a following sibling subtree at the nearest enclosing level (the
minimum stored OID above `q`), and the deepest reached node's own value (a
strict prefix of `q`) is never returned. -/
theorem claim6_amended {V : Type} (T : OidTrie V) (q : List Nat) :
    T.getNext q = T.iter.find? (fun e => oidLt q e.1) ∧
    ∀ p v, listPfx p q = true → p ≠ q → T.getNext q ≠ some (p, v) := by
  refine ⟨findNext_eq q T.root, ?_⟩
  intro p v hpfx hne hsome
  have hsome2 : (entries T.root).find? (fun e => oidLt q e.1) = some (p, v) := by
    rw [← findNext_eq q T.root]
    exact hsome
  have hpred : oidLt q p = true := by simpa using List.find?_some hsome2
  have hlt : oidLt p q = true := oidLt_of_strict_pfx hpfx hne
  have := oidLt_asymm hlt
  rw [this] at hpred
  exact absurd hpred (by simp)

/-- Witness for C6's amended statement on the one-entry trie at the walk-off
query `1.5`. -/
theorem claim6_witness :
    exTrie1.getNext [1, 5] = exTrie1.iter.find? (fun e => oidLt [1, 5] e.1) ∧
    ∀ p v, listPfx p [1, 5] = true → p ≠ [1, 5] →
      exTrie1.getNext [1, 5] ≠ some (p, v) :=
  claim6_amended exTrie1 [1, 5]

/-- C8: on a reachable trie, `longest_prefix(x)` returns `Some((p, v))` iff
some stored key is a prefix of `x`; then `p` is the longest stored key that is
a prefix of `x` (the terminal node included) and `v` the value stored at `p`. -/
theorem claim8_longestPfx {V : Type} (T : OidTrie V) (hR : Reachable T)
    (x : List Nat) :
    ((T.longestPfx x).isSome = true ↔ ∃ o ∈ T.keysOf, listPfx o x = true) ∧
    (∀ p v, T.longestPfx x = some (p, v) →
      listPfx p x = true ∧ T.get p = some v ∧
        ∀ o ∈ T.keysOf, listPfx o x = true → o.length ≤ p.length) := by
  obtain ⟨hw, -, -, -⟩ := Reachable_inv hR
  have heq : T.longestPfx x =
      (bestIn T.root x).map (fun jv => (x.take jv.1, jv.2)) := by
    rw [OidTrie.longestPfx, lpAux_eq x T.root 0 none]
    cases bestIn T.root x with
    | some jv => simp
    | none => simp
  constructor
  · rw [heq]
    constructor
    · intro h
      cases hb : bestIn T.root x with
      | none => rw [hb] at h; simp at h
      | some jv =>
        obtain ⟨j, v⟩ := jv
        obtain ⟨hj, hget⟩ := bestIn_get x T.root j v hb
        refine ⟨x.take j, ?_, listPfx_take x j⟩
        exact (mem_keysOf_iff hw _).2 ⟨v, hget⟩
    · rintro ⟨o, ho, hpfx⟩
      obtain ⟨w, hget⟩ := (mem_keysOf_iff hw o).1 ho
      obtain ⟨htake, hle⟩ := listPfx_take_eq hpfx
      cases hb : bestIn T.root x with
      | some jv => simp [hb]
      | none =>
        exfalso
        have := bestIn_none x T.root hb o.length hle
        rw [htake] at this
        rw [OidTrie.get] at hget
        rw [this] at hget
        exact Option.noConfusion hget
  · intro p v hsome
    rw [heq] at hsome
    cases hb : bestIn T.root x with
    | none => rw [hb] at hsome; simp at hsome
    | some jv =>
      obtain ⟨j, w⟩ := jv
      rw [hb] at hsome
      have hsome2 : x.take j = p ∧ w = v := by simpa using hsome
      obtain ⟨rfl, rfl⟩ := hsome2
      obtain ⟨hj, hget⟩ := bestIn_get x T.root j w hb
      refine ⟨listPfx_take x j, hget, ?_⟩
      intro o ho hpfx
      obtain ⟨w', hget'⟩ := (mem_keysOf_iff hw o).1 ho
      obtain ⟨htake, hle⟩ := listPfx_take_eq hpfx
      have hmax := bestIn_max x T.root j w hb o.length hle
        (by rw [htake]; simp [OidTrie.get] at hget'; simp [hget'])
      calc o.length ≤ j := hmax
        _ = (x.take j).length := by simp [hj]

/-- Witness for C8: the longest-prefix dispatch of spec scenario 6, with the
concrete lookup checked by evaluation. -/
theorem claim8_witness :
    Reachable exTrie3 ∧
    exTrie3.longestPfx [1, 3, 6, 1, 4, 1, 12345] = some ([1, 3, 6, 1, 4], 200) ∧
    exTrie3.longestPfx [1, 3, 6, 2] = some ([1, 3, 6], 100) ∧
    (((exTrie3.longestPfx [1, 3, 6, 1, 4, 1, 12345]).isSome = true ↔
        ∃ o ∈ exTrie3.keysOf, listPfx o [1, 3, 6, 1, 4, 1, 12345] = true) ∧
      (∀ p v, exTrie3.longestPfx [1, 3, 6, 1, 4, 1, 12345] = some (p, v) →
        listPfx p [1, 3, 6, 1, 4, 1, 12345] = true ∧ exTrie3.get p = some v ∧
          ∀ o ∈ exTrie3.keysOf, listPfx o [1, 3, 6, 1, 4, 1, 12345] = true →
            o.length ≤ p.length)) :=
  ⟨exTrie3_reachable, rfl, rfl,
    claim8_longestPfx exTrie3 exTrie3_reachable [1, 3, 6, 1, 4, 1, 12345]⟩

/-! ## OID text form (`src/oid/mod.rs`): `Display` and `FromStr`

Strings are modelled as `List Char`.  `Char.isWhitespace` stands in for
Rust's `str::trim` character class (the strings these claims quantify over
contain only ASCII digits and dots, where the two classes agree). -/

inductive OidError where
  | empty
  | invalidFormat (s : List Char)
  | invalidPart (s : List Char)
deriving DecidableEq

def digitChar (d : Nat) : Char := Char.ofNat (48 + d)

/-- Decimal digits of `n`, most significant first (`u32::to_string`). -/
def natDigitsAux : Nat → List Char → List Char
  | n, acc =>
    if n < 10 then digitChar (n % 10) :: acc
    else natDigitsAux (n / 10) (digitChar (n % 10) :: acc)
termination_by n => n
decreasing_by
  rename_i h
  exact Nat.div_lt_self (by omega) (by omega)

def natDigits (n : Nat) : List Char := natDigitsAux n []

/-- Rust `Oid`'s `Display`: the parts' decimal forms joined with dots. -/
def displayOid : List Nat → List Char
  | [] => []
  | p :: ps => natDigits p ++ ps.flatMap (fun x => '.' :: natDigits x)

/-- Rust `str::trim`. -/
def trimChars (s : List Char) : List Char :=
  ((s.dropWhile Char.isWhitespace).reverse.dropWhile Char.isWhitespace).reverse

/-- Rust `strip_prefix('.').unwrap_or(s)`: drops one leading dot if present. -/
def stripLeadingDot : List Char → List Char
  | [] => []
  | c :: r => if c = '.' then r else c :: r

/-- Rust `str::split('.')` (which never yields zero pieces). -/
def splitOnDot : List Char → List (List Char)
  | [] => [[]]
  | c :: cs =>
    match splitOnDot cs with
    | [] => [[]]
    | r :: rs => if c = '.' then [] :: r :: rs else (c :: r) :: rs

def digitVal (c : Char) : Nat := c.toNat - 48

/-- Optional leading `+` accepted by Rust's unsigned `FromStr`. -/
def stripPlus : List Char → List Char
  | [] => []
  | c :: r => if c = '+' then r else c :: r

/-- Rust `u32::from_str`: optional `+`, then one or more decimal digits, value
below `2^32` (overflow is rejected). -/
def parseU32 (s : List Char) : Option Nat :=
  let t := stripPlus s
  if t = [] then none
  else if t.all Char.isDigit then
    let n := t.foldl (fun acc c => acc * 10 + digitVal c) 0
    if n < 2 ^ 32 then some n else none
  else none

/-- The collecting `map(parse).collect::<Result<_, _>>()`: first failing part
wins. -/
def collectParts : List (List Char) → Except OidError (List Nat)
  | [] => .ok []
  | p :: ps =>
    match parseU32 p with
    | none => .error (.invalidPart p)
    | some n =>
      match collectParts ps with
      | .ok ns => .ok (n :: ns)
      | .error e => .error e

/-- Rust `Oid::from_str`: trim, strip one leading dot, reject the empty string with
`Empty`, parse the dot-separated parts (first bad part fails with
`InvalidPart`), and finish through `Oid::new` (which rejects an empty parts
list with `Empty`). -/
def oidFromStr (s : List Char) : Except OidError (List Nat) :=
  let s1 := stripLeadingDot (trimChars s)
  if s1 = [] then .error .empty
  else
    match collectParts (splitOnDot s1) with
    | .error e => .error e
    | .ok parts => if parts = [] then .error .empty else .ok parts

/-! ## Round-trip lemmas for the OID text form -/

theorem natDigitsAux_append (n : Nat) : ∀ acc : List Char,
    natDigitsAux n acc = natDigits n ++ acc := by
  induction n using Nat.strong_induction_on with
  | _ n ih =>
    intro acc
    by_cases h : n < 10
    · have e1 : natDigitsAux n acc = digitChar (n % 10) :: acc := by
        rw [natDigitsAux, if_pos h]
      have e2 : natDigitsAux n [] = [digitChar (n % 10)] := by
        rw [natDigitsAux, if_pos h]
      rw [natDigits, e1, e2]
      simp
    · have e1 : natDigitsAux n acc =
          natDigitsAux (n / 10) (digitChar (n % 10) :: acc) := by
        rw [natDigitsAux, if_neg h]
      have e2 : natDigitsAux n [] =
          natDigitsAux (n / 10) [digitChar (n % 10)] := by
        rw [natDigitsAux, if_neg h]
      rw [natDigits, e1, e2, ih (n / 10) (Nat.div_lt_self (by omega) (by omega)),
        ih (n / 10) (Nat.div_lt_self (by omega) (by omega)) [digitChar (n % 10)]]
      simp

theorem natDigits_eq (n : Nat) : natDigits n =
    if n < 10 then [digitChar (n % 10)]
    else natDigits (n / 10) ++ [digitChar (n % 10)] := by
  by_cases h : n < 10
  · rw [natDigits, natDigitsAux, if_pos h, if_pos h]
  · rw [natDigits, natDigitsAux, if_neg h, if_neg h, natDigitsAux_append]

theorem natDigits_ne_nil (n : Nat) : natDigits n ≠ [] := by
  rw [natDigits_eq]
  by_cases h : n < 10 <;> simp [h]

theorem natDigits_mem (n : Nat) : ∀ c ∈ natDigits n, ∃ d, d < 10 ∧ c = digitChar d := by
  induction n using Nat.strong_induction_on with
  | _ n ih =>
    intro c hc
    rw [natDigits_eq] at hc
    by_cases h : n < 10
    · rw [if_pos h] at hc
      simp only [List.mem_singleton] at hc
      exact ⟨n % 10, by omega, hc⟩
    · rw [if_neg h] at hc
      simp only [List.mem_append, List.mem_singleton] at hc
      rcases hc with hc | hc
      · exact ih (n / 10) (Nat.div_lt_self (by omega) (by omega)) c hc
      · exact ⟨n % 10, by omega, hc⟩

theorem digitChar_isDigit {d : Nat} (h : d < 10) : (digitChar d).isDigit = true := by
  interval_cases d <;> decide

theorem digitChar_not_ws {d : Nat} (h : d < 10) : (digitChar d).isWhitespace = false := by
  interval_cases d <;> decide

theorem digitChar_ne_dot {d : Nat} (h : d < 10) : digitChar d ≠ '.' := by
  interval_cases d <;> decide

theorem digitChar_ne_plus {d : Nat} (h : d < 10) : digitChar d ≠ '+' := by
  interval_cases d <;> decide

theorem digitVal_digitChar {d : Nat} (h : d < 10) : digitVal (digitChar d) = d := by
  interval_cases d <;> decide

theorem natDigits_foldl (n : Nat) : ∀ a : Nat,
    (natDigits n).foldl (fun acc c => acc * 10 + digitVal c) a =
      a * 10 ^ (natDigits n).length + n := by
  induction n using Nat.strong_induction_on with
  | _ n ih =>
    intro a
    rw [natDigits_eq]
    by_cases h : n < 10
    · rw [if_pos h]
      simp only [List.foldl_cons, List.foldl_nil, List.length_singleton]
      rw [digitVal_digitChar (by omega : n % 10 < 10), Nat.mod_eq_of_lt h,
        pow_one]
    · rw [if_neg h]
      rw [List.foldl_append,
        ih (n / 10) (Nat.div_lt_self (by omega) (by omega)) a]
      simp only [List.foldl_cons, List.foldl_nil, List.length_append,
        List.length_singleton]
      rw [digitVal_digitChar (by omega : n % 10 < 10), Nat.pow_succ]
      calc (a * 10 ^ (natDigits (n / 10)).length + n / 10) * 10 + n % 10
          = a * (10 ^ (natDigits (n / 10)).length * 10) +
              (n / 10 * 10 + n % 10) := by ring
        _ = a * (10 ^ (natDigits (n / 10)).length * 10) + n := by omega

theorem dropWhile_eq_self_of_head {p : Char → Bool} : ∀ {s : List Char},
    (∀ c ∈ s, p c = false) → s.dropWhile p = s
  | [], _ => rfl
  | c :: r, h => by
    rw [List.dropWhile_cons, h c (by simp)]
    simp

theorem trimChars_eq_self {s : List Char} (h : ∀ c ∈ s, c.isWhitespace = false) :
    trimChars s = s := by
  rw [trimChars, dropWhile_eq_self_of_head h,
    dropWhile_eq_self_of_head (fun c hc => h c (List.mem_reverse.1 hc)),
    List.reverse_reverse]

theorem displayOid_mem : ∀ (o : List Nat), ∀ c ∈ displayOid o,
    (∃ d, d < 10 ∧ c = digitChar d) ∨ c = '.'
  | [], c, hc => by simp [displayOid] at hc
  | p :: ps, c, hc => by
    simp only [displayOid, List.mem_append, List.mem_flatMap] at hc
    rcases hc with hc | ⟨x, _, hc⟩
    · exact Or.inl (natDigits_mem p c hc)
    · simp only [List.mem_cons] at hc
      rcases hc with rfl | hc
      · exact Or.inr rfl
      · exact Or.inl (natDigits_mem x c hc)

theorem displayOid_not_ws (o : List Nat) : ∀ c ∈ displayOid o,
    c.isWhitespace = false := by
  intro c hc
  rcases displayOid_mem o c hc with ⟨d, hd, rfl⟩ | rfl
  · exact digitChar_not_ws hd
  · decide

theorem stripLeadingDot_display : ∀ o : List Nat,
    stripLeadingDot (displayOid o) = displayOid o
  | [] => rfl
  | p :: ps => by
    rw [displayOid]
    cases hnd : natDigits p with
    | nil => exact absurd hnd (natDigits_ne_nil p)
    | cons c cs =>
      obtain ⟨d, hd, rfl⟩ := natDigits_mem p c (by simp [hnd])
      simp [stripLeadingDot, digitChar_ne_dot hd]

theorem splitOnDot_ne_nil : ∀ s : List Char, splitOnDot s ≠ []
  | [] => by simp [splitOnDot]
  | c :: cs => by
    rw [splitOnDot]
    cases h : splitOnDot cs with
    | nil => simp
    | cons r rs => by_cases hc : c = '.' <;> simp [hc]

theorem splitOnDot_no_dot : ∀ {xs : List Char},
    (∀ c ∈ xs, c ≠ '.') → splitOnDot xs = [xs]
  | [], _ => rfl
  | c :: cs, h => by
    rw [splitOnDot, splitOnDot_no_dot (fun c' hc' => h c' (by simp [hc']))]
    simp [h c (by simp)]

theorem splitOnDot_append : ∀ {xs : List Char} (rest : List Char),
    (∀ c ∈ xs, c ≠ '.') →
    splitOnDot (xs ++ '.' :: rest) = xs :: splitOnDot rest
  | [], rest, _ => by
    rw [List.nil_append, splitOnDot]
    cases h : splitOnDot rest with
    | nil => exact absurd h (splitOnDot_ne_nil rest)
    | cons r rs => simp
  | c :: cs, rest, h => by
    rw [List.cons_append, splitOnDot,
      splitOnDot_append rest (fun c' hc' => h c' (by simp [hc']))]
    simp [h c (by simp)]

theorem stripPlus_natDigits (n : Nat) : stripPlus (natDigits n) = natDigits n := by
  cases hnd : natDigits n with
  | nil => rfl
  | cons c cs =>
    obtain ⟨d, hd, rfl⟩ := natDigits_mem n c (by simp [hnd])
    simp [stripPlus, digitChar_ne_plus hd]

theorem parseU32_natDigits {n : Nat} (hn : n < 2 ^ 32) :
    parseU32 (natDigits n) = some n := by
  rw [parseU32]
  simp only [stripPlus_natDigits]
  rw [if_neg (natDigits_ne_nil n)]
  have hall : (natDigits n).all Char.isDigit = true := by
    rw [List.all_eq_true]
    intro c hc
    obtain ⟨d, hd, rfl⟩ := natDigits_mem n c hc
    exact digitChar_isDigit hd
  rw [if_pos hall]
  rw [natDigits_foldl n 0]
  simp only [Nat.zero_mul, Nat.zero_add]
  rw [if_pos hn]

theorem splitOnDot_display : ∀ o : List Nat, o ≠ [] →
    splitOnDot (displayOid o) = o.map natDigits
  | [], h => absurd rfl h
  | [p], _ => by
    rw [displayOid]
    simp only [List.flatMap_nil, List.append_nil, List.map_cons, List.map_nil]
    refine splitOnDot_no_dot (fun c hc => ?_)
    obtain ⟨d, hd, rfl⟩ := natDigits_mem p c hc
    exact digitChar_ne_dot hd
  | p :: q :: qs, _ => by
    have hshape : displayOid (p :: q :: qs) =
        natDigits p ++ '.' :: displayOid (q :: qs) := by
      rw [displayOid, displayOid]
      simp [List.flatMap_cons]
    rw [hshape, splitOnDot_append _ (fun c hc => by
      obtain ⟨d, hd, rfl⟩ := natDigits_mem p c hc
      exact digitChar_ne_dot hd),
      splitOnDot_display (q :: qs) (by simp)]
    rfl

theorem collectParts_map {o : List Nat} (h : ∀ x ∈ o, x < 2 ^ 32) :
    collectParts (o.map natDigits) = .ok o := by
  induction o with
  | nil => rfl
  | cons p ps ih =>
    rw [List.map_cons, collectParts,
      parseU32_natDigits (h p (by simp)),
      ih (fun x hx => h x (by simp [hx]))]

theorem collectParts_err : ∀ {parts : List (List Char)},
    (∃ p ∈ parts, parseU32 p = none) →
    ∃ t, collectParts parts = .error (.invalidPart t) ∧ parseU32 t = none
  | [], h => by simp at h
  | p :: ps, h => by
    rw [collectParts]
    cases hp : parseU32 p with
    | none => exact ⟨p, rfl, hp⟩
    | some n =>
      obtain ⟨q, hq, hqn⟩ := h
      simp only [List.mem_cons] at hq
      rcases hq with rfl | hq
      · rw [hp] at hqn; exact Option.noConfusion hqn
      · obtain ⟨t, ht, htn⟩ := collectParts_err ⟨q, hq, hqn⟩
        rw [ht]
        exact ⟨t, rfl, htn⟩

/-! ## Claim C9 -/

/-- C9: for every OID `o` with `1 ≤ len(o) ≤ 128` (components being 32-bit),
parsing the dot-separated decimal string `Display` produces yields `o` back;
parsing the empty string fails with `Empty`; and parsing a (nonempty after
trim/dot-strip) string one of whose dot-separated parts is not a decimal
32-bit unsigned integer fails with `InvalidPart`. -/
theorem claim9_parse_display (o : List Nat) (h1 : o ≠ []) (h2 : o.length ≤ 128)
    (h3 : ∀ x ∈ o, x < 2 ^ 32) :
    oidFromStr (displayOid o) = .ok o ∧
    oidFromStr [] = .error .empty ∧
    (∀ s : List Char, stripLeadingDot (trimChars s) ≠ [] →
      (∃ p ∈ splitOnDot (stripLeadingDot (trimChars s)), parseU32 p = none) →
      ∃ t, oidFromStr s = .error (.invalidPart t) ∧ parseU32 t = none) := by
  refine ⟨?_, rfl, ?_⟩
  · rw [oidFromStr]
    simp only [trimChars_eq_self (displayOid_not_ws o), stripLeadingDot_display o]
    have hne : displayOid o ≠ [] := by
      obtain ⟨p, ps, rfl⟩ := List.exists_cons_of_ne_nil h1
      rw [displayOid]
      intro hh
      exact natDigits_ne_nil p (List.append_eq_nil.1 hh).1
    rw [if_neg hne, splitOnDot_display o h1, collectParts_map h3]
    simp [h1]
  · intro s hne hbad
    rw [oidFromStr, if_neg hne]
    obtain ⟨t, ht, htn⟩ := collectParts_err hbad
    rw [ht]
    exact ⟨t, rfl, htn⟩

/-- Witness for C9 at the OID `1.3.6.1.4.1.42` (hypotheses discharged by
`decide`), together with a concrete parse checked by evaluation. -/
theorem claim9_witness :
    oidFromStr ['1', '.', '3', '.', 'a'] = .error (.invalidPart ['a']) ∧
    (oidFromStr (displayOid [1, 3, 6, 1, 4, 1, 42]) = .ok [1, 3, 6, 1, 4, 1, 42] ∧
      oidFromStr [] = .error .empty ∧
      (∀ s : List Char, stripLeadingDot (trimChars s) ≠ [] →
        (∃ p ∈ splitOnDot (stripLeadingDot (trimChars s)), parseU32 p = none) →
        ∃ t, oidFromStr s = .error (.invalidPart t) ∧ parseU32 t = none)) :=
  ⟨rfl,
    claim9_parse_display [1, 3, 6, 1, 4, 1, 42] (by decide) (by decide) (by decide)⟩

/-! ## AgentX Response codec

`src/agentx/bindings.rs` is in the sources and is embedded directly
(`encode_response_pdu`, `decode_response_pdu`).  The primitive codec it calls
(`pdu.rs`, `bodies.rs`) is not under `src/`; those encoders and decoders are
modelled from the spec (§3 value table, §4.1 primitive encoders, §4.2 Response
layout) and are marked as such below.  Bytes are `Nat` values below 256. -/

/-- Modelled from the spec: big-endian 16-bit encoder (§4.1, NETWORK_BYTE_ORDER
always set by encoders). -/
def u16Bytes (n : Nat) : List Nat := [n / 256 % 256, n % 256]

/-- Modelled from the spec: big-endian 32-bit encoder. -/
def u32Bytes (n : Nat) : List Nat :=
  [n / 2 ^ 24 % 256, n / 2 ^ 16 % 256, n / 2 ^ 8 % 256, n % 256]

/-- Modelled from the spec: big-endian 64-bit encoder. -/
def u64Bytes (n : Nat) : List Nat :=
  [n / 2 ^ 56 % 256, n / 2 ^ 48 % 256, n / 2 ^ 40 % 256, n / 2 ^ 32 % 256,
    n / 2 ^ 24 % 256, n / 2 ^ 16 % 256, n / 2 ^ 8 % 256, n % 256]

/-- Pad bytes needed to reach a 4-byte boundary. -/
def padLen (n : Nat) : Nat := (4 - n % 4) % 4

/-- Modelled from the spec: octet string — 4-byte length prefix, the bytes,
then 0..3 zero pad bytes (§4.1). -/
def encodeOctetString (s : List Nat) : List Nat :=
  u32Bytes s.length ++ s ++ List.replicate (padLen s.length) 0

/-- Modelled from the spec: OID wire form with `prefix = 0` (the in-memory OID
is always fully materialized; §4.1, §9): `n_subid`, `prefix`, `include`,
reserved, then the 32-bit sub-identifiers. -/
def encodeOidWire (parts : List Nat) (incl : Nat) : List Nat :=
  parts.length :: 0 :: incl :: 0 :: parts.flatMap u32Bytes

/-- Modelled from the spec: big-endian 16-bit reader. -/
def readU16 : List Nat → Option (Nat × List Nat)
  | a :: b :: r => some (a * 256 + b, r)
  | _ => none

/-- Modelled from the spec: big-endian 32-bit reader. -/
def readU32 : List Nat → Option (Nat × List Nat)
  | a :: b :: c :: d :: r => some (((a * 256 + b) * 256 + c) * 256 + d, r)
  | _ => none

/-- Modelled from the spec: big-endian 64-bit reader. -/
def readU64 (s : List Nat) : Option (Nat × List Nat) :=
  match readU32 s with
  | none => none
  | some (hi, r) =>
    match readU32 r with
    | none => none
    | some (lo, r2) => some (hi * 2 ^ 32 + lo, r2)

/-- Reads `n` raw bytes, failing when they would overrun the input. -/
def readBytes (n : Nat) (s : List Nat) : Option (List Nat × List Nat) :=
  if n ≤ s.length then some (s.take n, s.drop n) else none

/-- Modelled from the spec: octet-string decoder — length prefix, content,
pad skip; `Malformed` (here `none`) when the advertised length would overrun
the payload (§4.1). -/
def readOctetString (s : List Nat) : Option (List Nat × List Nat) :=
  match readU32 s with
  | none => none
  | some (len, r) =>
    match readBytes len r with
    | none => none
    | some (content, r2) =>
      match readBytes (padLen len) r2 with
      | none => none
      | some (_, r3) => some (content, r3)

/-- Reads `n` consecutive 32-bit sub-identifiers. -/
def readU32s : Nat → List Nat → Option (List Nat × List Nat)
  | 0, s => some ([], s)
  | n + 1, s =>
    match readU32 s with
    | none => none
    | some (x, r) =>
      match readU32s n r with
      | none => none
      | some (xs, r2) => some (x :: xs, r2)

/-- Modelled from the spec: OID decoder (§4.1) — 4 header bytes, `Malformed`
when `n_subid > 128` or the effective length exceeds 128; `prefix ≠ 0`
prepends `1.3.6.1.prefix`. -/
def readOidWire (s : List Nat) : Option (List Nat × Nat × List Nat) :=
  match s with
  | nsub :: pfx :: incl :: _resv :: r =>
    if nsub > 128 then none
    else
      match readU32s nsub r with
      | none => none
      | some (subids, r2) =>
        let oid := (if pfx ≠ 0 then [1, 3, 6, 1, pfx] else []) ++ subids
        if oid.length > 128 then none else some (oid, incl, r2)
  | _ => none

/-- The SMI value union (`src/types/mod.rs` `Value`, with the IPv4 address
as four explicit bytes and the 32-bit signedness of `Integer` as `Int`). -/
inductive AxValue : Type where
  | integer (i : Int)
  | octetString (s : List Nat)
  | null
  | objectIdentifier (o : List Nat)
  | ipAddress (a b c d : Nat)
  | counter32 (n : Nat)
  | gauge32 (n : Nat)
  | timeTicks (n : Nat)
  | opaqueData (s : List Nat)
  | counter64 (n : Nat)
  | noSuchObject
  | noSuchInstance
  | endOfMibView
deriving DecidableEq

/-- The 16-bit AgentX type codes of §3. -/
def typeCode : AxValue → Nat
  | .integer _ => 2
  | .octetString _ => 4
  | .null => 5
  | .objectIdentifier _ => 6
  | .ipAddress _ _ _ _ => 64
  | .counter32 _ => 65
  | .gauge32 _ => 66
  | .timeTicks _ => 67
  | .opaqueData _ => 68
  | .counter64 _ => 70
  | .noSuchObject => 128
  | .noSuchInstance => 129
  | .endOfMibView => 130

/-- Modelled from the spec: the per-variant value payload of the §3 table
(`encode_value`); `Integer` is the 32-bit two's-complement image, `IpAddress`
is 4 bytes carried in octet-string form. -/
def encodeValuePayload : AxValue → List Nat
  | .integer i => u32Bytes (i % (2 ^ 32 : Int)).toNat
  | .octetString s => encodeOctetString s
  | .null => []
  | .objectIdentifier o => encodeOidWire o 0
  | .ipAddress a b c d => encodeOctetString [a, b, c, d]
  | .counter32 n => u32Bytes n
  | .gauge32 n => u32Bytes n
  | .timeTicks n => u32Bytes n
  | .opaqueData s => encodeOctetString s
  | .counter64 n => u64Bytes n
  | .noSuchObject => []
  | .noSuchInstance => []
  | .endOfMibView => []

/-- Modelled from the spec: the value decoder keyed by the 16-bit type code
(`decode_value`); unknown codes are `Malformed` (`none`). -/
def decodeValuePayload (code : Nat) (s : List Nat) : Option (AxValue × List Nat) :=
  if code = 2 then
    match readU32 s with
    | none => none
    | some (n, r) =>
      some (.integer (if n < 2 ^ 31 then (n : Int) else (n : Int) - 2 ^ 32), r)
  else if code = 4 then
    match readOctetString s with
    | none => none
    | some (content, r) => some (.octetString content, r)
  else if code = 5 then some (.null, s)
  else if code = 6 then
    match readOidWire s with
    | none => none
    | some (o, _, r) => some (.objectIdentifier o, r)
  else if code = 64 then
    match readOctetString s with
    | none => none
    | some ([a, b, c, d], r) => some (.ipAddress a b c d, r)
    | some (_, _) => none
  else if code = 65 then
    match readU32 s with
    | none => none
    | some (n, r) => some (.counter32 n, r)
  else if code = 66 then
    match readU32 s with
    | none => none
    | some (n, r) => some (.gauge32 n, r)
  else if code = 67 then
    match readU32 s with
    | none => none
    | some (n, r) => some (.timeTicks n, r)
  else if code = 68 then
    match readOctetString s with
    | none => none
    | some (content, r) => some (.opaqueData content, r)
  else if code = 70 then
    match readU64 s with
    | none => none
    | some (n, r) => some (.counter64 n, r)
  else if code = 128 then some (.noSuchObject, s)
  else if code = 129 then some (.noSuchInstance, s)
  else if code = 130 then some (.endOfMibView, s)
  else none

/-- A VarBind: name OID plus typed value (the type code is determined by the
value variant). -/
structure AxVarBind : Type where
  oid : List Nat
  value : AxValue
deriving DecidableEq

/-- Modelled from the spec: VarBind encoder (§4.1) — type code, reserved,
name OID, value payload. -/
def encodeVarBind (vb : AxVarBind) : List Nat :=
  u16Bytes (typeCode vb.value) ++ u16Bytes 0 ++ encodeOidWire vb.oid 0 ++
    encodeValuePayload vb.value

/-- Modelled from the spec: VarBind decoder (`VarBind::decode`). -/
def decodeVarBind (s : List Nat) : Option (AxVarBind × List Nat) :=
  match readU16 s with
  | none => none
  | some (code, r1) =>
    match readU16 r1 with
    | none => none
    | some (_resv, r2) =>
      match readOidWire r2 with
      | none => none
      | some (oid, _incl, r3) =>
        match decodeValuePayload code r3 with
        | none => none
        | some (v, r4) => some (⟨oid, v⟩, r4)

/-- The Response PDU body fields (§4.2). -/
structure ResponsePdu : Type where
  sysUptime : Nat
  error : Nat
  index : Nat
  varbinds : List AxVarBind
deriving DecidableEq

/-- Modelled from the spec: `ResponsePdu::new(sys_uptime, varbinds)` — error
`NoError` (0) and index 0 (the constructor takes neither). -/
def ResponsePdu.new (sysUptime : Nat) (varbinds : List AxVarBind) : ResponsePdu :=
  ⟨sysUptime, 0, 0, varbinds⟩

/-- Modelled from the spec: `ResponsePdu::error(sys_uptime, error, index)` —
an error response carries zero varbinds (spec scenario 3). -/
def ResponsePdu.mkError (sysUptime error index : Nat) : ResponsePdu :=
  ⟨sysUptime, error, index, []⟩

/-- Modelled from the spec: `ResponsePdu::encode` — sys_uptime (4), error (2),
index (2), then the varbinds (§4.2). -/
def ResponsePdu.encode (p : ResponsePdu) : List Nat :=
  u32Bytes p.sysUptime ++ u16Bytes p.error ++ u16Bytes p.index ++
    p.varbinds.flatMap encodeVarBind

/-- Modelled from the spec: `ResponsePdu::decode` reads the fixed 8-byte part
(sys_uptime, error, index); it takes no payload length, so it leaves the
varbinds empty — `decode_response_pdu` fills them in afterwards. -/
def ResponsePdu.decodeFixed (s : List Nat) : Option (ResponsePdu × List Nat) :=
  match readU32 s with
  | none => none
  | some (uptime, r1) =>
    match readU16 r1 with
    | none => none
    | some (err, r2) =>
      match readU16 r2 with
      | none => none
      | some (idx, r3) => some (⟨uptime, err, idx, []⟩, r3)

/-- The varbind loop of `decode_response_pdu` (`src/agentx/bindings.rs`):
`budget` is `remaining - bytes_read`; each successful `VarBind::decode` adds
`8 + oid.len()*4 + 8` to `bytes_read`, and a decode error breaks the loop,
keeping the varbinds read so far. -/
def vbLoop (data : List Nat) (budget : Nat) : List AxVarBind :=
  if h : 0 < budget then
    match decodeVarBind data with
    | some (vb, rest) => vb :: vbLoop rest (budget - (8 + vb.oid.length * 4 + 8))
    | none => []
  else []
termination_by budget
decreasing_by exact Nat.sub_lt h (by omega)

/-- Rust `decode_response_pdu(data, payload_len)` from `src/agentx/bindings.rs`:
decode the fixed part, then — only when `payload_len > 8` — run the varbind
loop over the remainder with `remaining = payload_len - 8`. -/
def decodeResponsePdu (data : List Nat) (payloadLen : Nat) : Option ResponsePdu :=
  match ResponsePdu.decodeFixed data with
  | none => none
  | some (resp, rest) =>
    if payloadLen > 8 then
      some ⟨resp.sysUptime, resp.error, resp.index, vbLoop rest (payloadLen - 8)⟩
    else
      some resp

/-- Rust `encode_response_pdu` from `src/agentx/bindings.rs`, at the body level
(the 20-byte header the wrapper prepends carries `payload_length =
body.len()`): a nonzero error selects `ResponsePdu::error` — discarding the
supplied varbinds — and a zero error selects `ResponsePdu::new`. -/
def encodeResponsePduBody (sysUptime error index : Nat)
    (varbinds : List AxVarBind) : List Nat :=
  let pdu := if error ≠ 0 then ResponsePdu.mkError sysUptime error index
             else ResponsePdu.new sysUptime varbinds
  pdu.encode

/-! ## Codec round-trip lemmas -/

@[simp] theorem u16Bytes_length (n : Nat) : (u16Bytes n).length = 2 := rfl

@[simp] theorem u32Bytes_length (n : Nat) : (u32Bytes n).length = 4 := rfl

@[simp] theorem u64Bytes_length (n : Nat) : (u64Bytes n).length = 8 := rfl

theorem readU16_u16Bytes {n : Nat} (h : n < 2 ^ 16) (r : List Nat) :
    readU16 (u16Bytes n ++ r) = some (n, r) := by
  simp only [u16Bytes, List.cons_append, List.nil_append, readU16,
    Option.some.injEq, Prod.mk.injEq, and_true]
  omega

theorem readU32_u32Bytes {n : Nat} (h : n < 2 ^ 32) (r : List Nat) :
    readU32 (u32Bytes n ++ r) = some (n, r) := by
  simp only [u32Bytes, List.cons_append, List.nil_append, readU32,
    Option.some.injEq, Prod.mk.injEq, and_true]
  omega

theorem u64Bytes_split (n : Nat) :
    u64Bytes n = u32Bytes (n / 2 ^ 32) ++ u32Bytes (n % 2 ^ 32) := by
  simp only [u64Bytes, u32Bytes, List.cons_append, List.nil_append,
    List.cons.injEq, and_true]
  refine ⟨?_, ?_, ?_, ?_, ?_, ?_, ?_, ?_⟩ <;> first | omega | trivial

theorem readU64_u64Bytes {n : Nat} (h : n < 2 ^ 64) (r : List Nat) :
    readU64 (u64Bytes n ++ r) = some (n, r) := by
  rw [u64Bytes_split, List.append_assoc]
  simp only [readU64, readU32_u32Bytes (by omega : n / 2 ^ 32 < 2 ^ 32),
    readU32_u32Bytes (by omega : n % 2 ^ 32 < 2 ^ 32),
    Option.some.injEq, Prod.mk.injEq, and_true]
  omega

theorem readBytes_append (s r : List Nat) :
    readBytes s.length (s ++ r) = some (s, r) := by
  rw [readBytes, if_pos (by simp)]
  simp [List.take_left, List.drop_left]

theorem readBytes_replicate (p : Nat) (r : List Nat) :
    readBytes p (List.replicate p 0 ++ r) = some (List.replicate p 0, r) := by
  have := readBytes_append (List.replicate p 0) r
  simpa using this

theorem readOctetString_enc {s : List Nat} (h : s.length < 2 ^ 32) (r : List Nat) :
    readOctetString (encodeOctetString s ++ r) = some (s, r) := by
  simp only [readOctetString, encodeOctetString, List.append_assoc,
    readU32_u32Bytes h, readBytes_append, readBytes_replicate]

theorem readU32s_enc : ∀ {parts : List Nat}, (∀ x ∈ parts, x < 2 ^ 32) →
    ∀ r : List Nat, readU32s parts.length (parts.flatMap u32Bytes ++ r) = some (parts, r)
  | [], _, r => rfl
  | x :: xs, h, r => by
    have e := readU32s_enc (fun y hy => h y (List.mem_cons_of_mem x hy)) r
    simp only [List.length_cons, List.flatMap_cons, List.append_assoc, readU32s,
      readU32_u32Bytes (h x (by simp)), e]

theorem readOidWire_enc {parts : List Nat} (h128 : parts.length ≤ 128)
    (hb : ∀ x ∈ parts, x < 2 ^ 32) (incl : Nat) (r : List Nat) :
    readOidWire (encodeOidWire parts incl ++ r) = some (parts, incl, r) := by
  have h1 : ¬ parts.length > 128 := by omega
  have e := readU32s_enc hb r
  simp [encodeOidWire, readOidWire, h1, e]

theorem typeCode_lt (v : AxValue) : typeCode v < 2 ^ 16 := by
  cases v <;> simp [typeCode]

/-- Modelled from the spec: the value-level well-formedness a valid PDU's
varbinds satisfy (32/64-bit ranges, OID length ≤ 128, bytes below 256). -/
def ValidValue : AxValue → Prop
  | .integer i => -(2 ^ 31) ≤ i ∧ i < 2 ^ 31
  | .octetString s => s.length < 2 ^ 32 ∧ ∀ b ∈ s, b < 256
  | .null => True
  | .objectIdentifier o => o.length ≤ 128 ∧ ∀ x ∈ o, x < 2 ^ 32
  | .ipAddress a b c d => a < 256 ∧ b < 256 ∧ c < 256 ∧ d < 256
  | .counter32 n => n < 2 ^ 32
  | .gauge32 n => n < 2 ^ 32
  | .timeTicks n => n < 2 ^ 32
  | .opaqueData s => s.length < 2 ^ 32 ∧ ∀ b ∈ s, b < 256
  | .counter64 n => n < 2 ^ 64
  | .noSuchObject => True
  | .noSuchInstance => True
  | .endOfMibView => True

/-- A valid VarBind: nonempty name OID within the wire bounds and a valid
value. -/
def ValidVarBind (vb : AxVarBind) : Prop :=
  vb.oid ≠ [] ∧ vb.oid.length ≤ 128 ∧ (∀ x ∈ vb.oid, x < 2 ^ 32) ∧
    ValidValue vb.value

theorem int_bits_lt (i : Int) : (i % (2 ^ 32 : Int)).toNat < 2 ^ 32 := by
  omega

theorem int_bits_round {i : Int} (h1 : -(2 ^ 31) ≤ i) (h2 : i < 2 ^ 31) :
    (if (i % (2 ^ 32 : Int)).toNat < 2 ^ 31
      then (((i % (2 ^ 32 : Int)).toNat : Nat) : Int)
      else (((i % (2 ^ 32 : Int)).toNat : Nat) : Int) - 2 ^ 32) = i := by
  by_cases h : (i % (2 ^ 32 : Int)).toNat < 2 ^ 31 <;> simp [h] <;> omega

theorem decodeValuePayload_enc {v : AxValue} (hv : ValidValue v) (r : List Nat) :
    decodeValuePayload (typeCode v) (encodeValuePayload v ++ r) = some (v, r) := by
  cases v with
  | integer i =>
    obtain ⟨h1, h2⟩ := hv
    simp only [typeCode, encodeValuePayload, decodeValuePayload, if_pos,
      readU32_u32Bytes (int_bits_lt i), Option.some.injEq, Prod.mk.injEq,
      AxValue.integer.injEq, and_true]
    exact int_bits_round h1 h2
  | octetString s =>
    obtain ⟨h1, -⟩ := hv
    simp [typeCode, encodeValuePayload, decodeValuePayload, readOctetString_enc h1]
  | null => rfl
  | objectIdentifier o =>
    obtain ⟨h1, h2⟩ := hv
    simp [typeCode, encodeValuePayload, decodeValuePayload, readOidWire_enc h1 h2]
  | ipAddress a b c d =>
    simp [typeCode, encodeValuePayload, decodeValuePayload,
      readOctetString_enc (by simp : ([a, b, c, d] : List Nat).length < 2 ^ 32)]
  | counter32 n =>
    simp [typeCode, encodeValuePayload, decodeValuePayload, readU32_u32Bytes hv]
  | gauge32 n =>
    simp [typeCode, encodeValuePayload, decodeValuePayload, readU32_u32Bytes hv]
  | timeTicks n =>
    simp [typeCode, encodeValuePayload, decodeValuePayload, readU32_u32Bytes hv]
  | opaqueData s =>
    obtain ⟨h1, -⟩ := hv
    simp [typeCode, encodeValuePayload, decodeValuePayload, readOctetString_enc h1]
  | counter64 n =>
    simp [typeCode, encodeValuePayload, decodeValuePayload, readU64_u64Bytes hv]
  | noSuchObject => rfl
  | noSuchInstance => rfl
  | endOfMibView => rfl

theorem decodeVarBind_enc {vb : AxVarBind} (hvb : ValidVarBind vb) (r : List Nat) :
    decodeVarBind (encodeVarBind vb ++ r) = some (vb, r) := by
  obtain ⟨o, v⟩ := vb
  obtain ⟨-, h128, hb, hv⟩ := hvb
  simp only [encodeVarBind, List.append_assoc, decodeVarBind,
    readU16_u16Bytes (typeCode_lt v),
    readU16_u16Bytes (by omega : (0 : Nat) < 2 ^ 16),
    readOidWire_enc h128 hb, decodeValuePayload_enc hv r]

/-! ## Behaviour of the `decode_response_pdu` varbind loop -/

theorem decodeVarBind_nil : decodeVarBind ([] : List Nat) = none := rfl

theorem vbLoop_zero (data : List Nat) : vbLoop data 0 = [] := by
  rw [vbLoop]
  simp

theorem vbLoop_nil (budget : Nat) : vbLoop ([] : List Nat) budget = [] := by
  rw [vbLoop]
  by_cases h : 0 < budget <;> simp [h, decodeVarBind_nil]

theorem vbLoop_step {data : List Nat} {budget : Nat} (h : 0 < budget)
    {vb : AxVarBind} {rest : List Nat} (hd : decodeVarBind data = some (vb, rest)) :
    vbLoop data budget = vb :: vbLoop rest (budget - (8 + vb.oid.length * 4 + 8)) := by
  rw [vbLoop]
  simp [h, hd]

theorem vbLoop_fail {data : List Nat} {budget : Nat}
    (hd : decodeVarBind data = none) : vbLoop data budget = [] := by
  rw [vbLoop]
  by_cases h : 0 < budget <;> simp [h, hd]

theorem flatMap_u32_len (l : List Nat) : (l.flatMap u32Bytes).length = 4 * l.length := by
  induction l with
  | nil => rfl
  | cons x xs ih =>
    simp [List.flatMap_cons, ih]
    omega

theorem encodeVarBind_len (vb : AxVarBind) :
    (encodeVarBind vb).length =
      8 + vb.oid.length * 4 + (encodeValuePayload vb.value).length := by
  rw [encodeVarBind, encodeOidWire]
  simp only [List.length_append, u16Bytes_length, List.length_cons, flatMap_u32_len]
  omega

theorem decodeFixed_none_iff (data : List Nat) :
    ResponsePdu.decodeFixed data = none ↔ data.length < 8 := by
  rcases data with _ | ⟨a, _ | ⟨b, _ | ⟨c, _ | ⟨d, _ | ⟨e, _ | ⟨f, _ | ⟨g, _ | ⟨hh, t⟩⟩⟩⟩⟩⟩⟩⟩ <;>
    simp [ResponsePdu.decodeFixed, readU32, readU16]

/-! ## Claims C2, C3, C10: the Response codec -/

/-- A small varbind used by the concrete counterexamples: name OID `1`,
Counter32 value 1; its wire form is 16 bytes, while the decode loop accounts
it as `8 + 1*4 + 8 = 20` bytes. -/
def cexVb : AxVarBind := ⟨[1], .counter32 1⟩

theorem cexVb_valid : ValidVarBind cexVb := by
  refine ⟨by simp [cexVb], by simp [cexVb], ?_, ?_⟩
  · intro x hx
    simp [cexVb] at hx
    omega
  · simp [cexVb, ValidValue]

/-- C10: `encode_response_pdu` with a nonzero error discards the supplied
varbinds — the emitted body is the 8 fixed bytes alone, identical for every
varbinds argument — while a zero error encodes the supplied varbinds (after
`ResponsePdu::new`, whose index field is 0). -/
theorem claim10_error_discards_varbinds (sysUptime errorCode index : Nat)
    (h : errorCode ≠ 0) (vbs vbs' : List AxVarBind) :
    encodeResponsePduBody sysUptime errorCode index vbs =
      encodeResponsePduBody sysUptime errorCode index vbs' ∧
    encodeResponsePduBody sysUptime errorCode index vbs =
      u32Bytes sysUptime ++ u16Bytes errorCode ++ u16Bytes index ∧
    (∀ u i vbs2, encodeResponsePduBody u 0 i vbs2 =
      u32Bytes u ++ u16Bytes 0 ++ u16Bytes 0 ++ vbs2.flatMap encodeVarBind) := by
  refine ⟨?_, ?_, ?_⟩ <;>
    simp [encodeResponsePduBody, h, ResponsePdu.mkError, ResponsePdu.new,
      ResponsePdu.encode]

/-- Witness for C10 at error 263 (DuplicateRegistration), checking the
concrete 8-byte error body by evaluation. -/
theorem claim10_witness :
    (263 : Nat) ≠ 0 ∧
    encodeResponsePduBody 7 263 1 [cexVb] = [0, 0, 0, 7, 1, 7, 0, 1] ∧
    (encodeResponsePduBody 7 263 1 [cexVb] = encodeResponsePduBody 7 263 1 [] ∧
      encodeResponsePduBody 7 263 1 [cexVb] =
        u32Bytes 7 ++ u16Bytes 263 ++ u16Bytes 1 ∧
      (∀ u i vbs2, encodeResponsePduBody u 0 i vbs2 =
        u32Bytes u ++ u16Bytes 0 ++ u16Bytes 0 ++ vbs2.flatMap encodeVarBind)) :=
  ⟨by decide, rfl, claim10_error_discards_varbinds 7 263 1 (by decide) [cexVb] []⟩

/-- C3 is false for `decode_response_pdu`: when a varbind fails to decode
mid-payload, the loop breaks and the successfully decoded prefix is returned
as a successful Response — not an error.  Concretely: an 8-byte fixed part,
one valid 16-byte varbind, then 8 bytes of `0xFF` garbage (an OID header with
`n_subid = 255 > 128`, hence `Malformed`), with `payload_len = 32`.  The
garbage is reached because the loop's byte accounting (20 per varbind) is
still below `remaining = 24` after the first varbind. -/
theorem claim3_counterexample :
    decodeVarBind (List.replicate 8 255) = none ∧
    decodeResponsePdu
        (u32Bytes 0 ++ u16Bytes 0 ++ u16Bytes 0 ++
          (encodeVarBind cexVb ++ List.replicate 8 255)) 32 =
      some ⟨0, 0, 0, [cexVb]⟩ := by
  refine ⟨rfl, ?_⟩
  have hsplit : decodeResponsePdu
      (u32Bytes 0 ++ u16Bytes 0 ++ u16Bytes 0 ++
        (encodeVarBind cexVb ++ List.replicate 8 255)) 32 =
      some ⟨0, 0, 0, vbLoop (encodeVarBind cexVb ++ List.replicate 8 255) 24⟩ := rfl
  rw [hsplit, vbLoop_step (by norm_num) (decodeVarBind_enc cexVb_valid _),
    vbLoop_fail (show decodeVarBind (List.replicate 8 255) = none from rfl)]

/-- C3 amended: the only failure `decode_response_pdu` ever reports is a
fixed-part short read (fewer than 8 bytes of data); every varbind-level
decode failure is swallowed by the loop's `break`, and the varbinds read
before the failure are returned in a successful Response. -/
theorem claim3_amended (data : List Nat) (payloadLen : Nat) :
    (decodeResponsePdu data payloadLen = none ↔ data.length < 8) := by
  rw [decodeResponsePdu]
  cases hfix : ResponsePdu.decodeFixed data with
  | none => simp [(decodeFixed_none_iff data).1 hfix]
  | some pr =>
    have hlen : ¬ data.length < 8 := by
      intro hc
      rw [(decodeFixed_none_iff data).2 hc] at hfix
      exact Option.noConfusion hfix
    by_cases hp : payloadLen > 8 <;> simp [hp, hlen]

/-- C2 is false as stated: the decoder's per-varbind accounting
(`8 + oid.len()*4 + 8` bytes) overestimates the 16-byte wire size of a
Counter32 varbind with a 1-component OID, so with five such varbinds the loop
stops after four — the round trip silently drops the fifth.  (The body is the
`error = 0` encoding; `payload_len` is the body length, 88.) -/
theorem claim2_counterexample :
    decodeResponsePdu (encodeResponsePduBody 0 0 0 [cexVb, cexVb, cexVb, cexVb, cexVb])
        (encodeResponsePduBody 0 0 0 [cexVb, cexVb, cexVb, cexVb, cexVb]).length =
      some ⟨0, 0, 0, [cexVb, cexVb, cexVb, cexVb]⟩ ∧
    decodeResponsePdu (encodeResponsePduBody 0 0 0 [cexVb, cexVb, cexVb, cexVb, cexVb])
        (encodeResponsePduBody 0 0 0 [cexVb, cexVb, cexVb, cexVb, cexVb]).length ≠
      some ⟨0, 0, 0, [cexVb, cexVb, cexVb, cexVb, cexVb]⟩ := by
  have hE : ∀ r, decodeVarBind (encodeVarBind cexVb ++ r) = some (cexVb, r) :=
    fun r => decodeVarBind_enc cexVb_valid r
  have h1 : decodeResponsePdu
      (encodeResponsePduBody 0 0 0 [cexVb, cexVb, cexVb, cexVb, cexVb])
      (encodeResponsePduBody 0 0 0 [cexVb, cexVb, cexVb, cexVb, cexVb]).length =
      some ⟨0, 0, 0, [cexVb, cexVb, cexVb, cexVb]⟩ := by
    have hsplit : decodeResponsePdu
        (encodeResponsePduBody 0 0 0 [cexVb, cexVb, cexVb, cexVb, cexVb])
        (encodeResponsePduBody 0 0 0 [cexVb, cexVb, cexVb, cexVb, cexVb]).length =
        some ⟨0, 0, 0,
          vbLoop (encodeVarBind cexVb ++ (encodeVarBind cexVb ++ (encodeVarBind cexVb ++
            (encodeVarBind cexVb ++ (encodeVarBind cexVb ++ []))))) 80⟩ := rfl
    rw [hsplit, vbLoop_step (by decide) (hE _)]
    simp only [show cexVb.oid.length = 1 from rfl]
    norm_num
    rw [vbLoop_step (by decide) (hE _)]
    simp only [show cexVb.oid.length = 1 from rfl]
    norm_num
    rw [vbLoop_step (by decide) (hE _)]
    simp only [show cexVb.oid.length = 1 from rfl]
    norm_num
    rw [vbLoop_step (by decide) (hE _)]
    simp only [show cexVb.oid.length = 1 from rfl]
    norm_num
    rw [vbLoop_zero]
  refine ⟨h1, ?_⟩
  rw [h1]
  intro hc
  have := (Option.some.inj hc)
  have hlist : ([cexVb, cexVb, cexVb, cexVb] : List AxVarBind) =
      [cexVb, cexVb, cexVb, cexVb, cexVb] := congrArg ResponsePdu.varbinds this
  exact absurd (congrArg List.length hlist) (by decide)

/-- C2 amended: the fixed fields survive the round trip, but not the varbind
sequence in general.  With a nonzero error the varbinds are discarded by the
encoder and the decode reproduces `sys_uptime`, `error`, `index` with zero
varbinds; with error 0 the encoder writes index 0, and a single valid varbind
round-trips (longer sequences can be truncated by the loop's length
accounting, see the counterexample). -/
theorem claim2_amended (sysUptime errorCode index : Nat)
    (vbs : List AxVarBind) (vb : AxVarBind)
    (hu : sysUptime < 2 ^ 32) (he : errorCode < 2 ^ 16) (hi : index < 2 ^ 16) :
    (errorCode ≠ 0 →
      decodeResponsePdu (encodeResponsePduBody sysUptime errorCode index vbs)
          (encodeResponsePduBody sysUptime errorCode index vbs).length =
        some ⟨sysUptime, errorCode, index, []⟩) ∧
    (ValidVarBind vb →
      decodeResponsePdu (encodeResponsePduBody sysUptime 0 index [vb])
          (encodeResponsePduBody sysUptime 0 index [vb]).length =
        some ⟨sysUptime, 0, 0, [vb]⟩) := by
  constructor
  · intro hne
    have hbody : encodeResponsePduBody sysUptime errorCode index vbs =
        u32Bytes sysUptime ++ (u16Bytes errorCode ++ (u16Bytes index ++ [])) := by
      simp [encodeResponsePduBody, hne, ResponsePdu.mkError, ResponsePdu.encode,
        List.append_assoc]
    have hlen : (u32Bytes sysUptime ++ (u16Bytes errorCode ++
        (u16Bytes index ++ []))).length = 8 := by
      simp
    have hfix : ResponsePdu.decodeFixed
        (u32Bytes sysUptime ++ (u16Bytes errorCode ++ (u16Bytes index ++ []))) =
        some (⟨sysUptime, errorCode, index, []⟩, []) := by
      simp only [ResponsePdu.decodeFixed, readU32_u32Bytes hu,
        readU16_u16Bytes he, readU16_u16Bytes hi]
    rw [hbody, hlen, decodeResponsePdu, hfix]
    simp
  · intro hvb
    have hbody : encodeResponsePduBody sysUptime 0 index [vb] =
        u32Bytes sysUptime ++ (u16Bytes 0 ++ (u16Bytes 0 ++
          (encodeVarBind vb ++ []))) := by
      simp [encodeResponsePduBody, ResponsePdu.new, ResponsePdu.encode,
        List.flatMap_cons, List.append_assoc]
    have hvlen : 0 < (encodeVarBind vb).length := by
      rw [encodeVarBind_len]
      omega
    have hlen : (u32Bytes sysUptime ++ (u16Bytes 0 ++ (u16Bytes 0 ++
        (encodeVarBind vb ++ [])))).length = 8 + (encodeVarBind vb).length := by
      simp
      omega
    have hfix : ResponsePdu.decodeFixed
        (u32Bytes sysUptime ++ (u16Bytes 0 ++ (u16Bytes 0 ++
          (encodeVarBind vb ++ [])))) =
        some (⟨sysUptime, 0, 0, []⟩, encodeVarBind vb ++ []) := by
      simp only [ResponsePdu.decodeFixed, readU32_u32Bytes hu,
        readU16_u16Bytes (by omega : (0 : Nat) < 2 ^ 16)]
    rw [hbody, hlen, decodeResponsePdu, hfix]
    simp only []
    rw [if_pos (by omega)]
    have hbud : 8 + (encodeVarBind vb).length - 8 = (encodeVarBind vb).length := by
      omega
    rw [hbud]
    have hstep : decodeVarBind (encodeVarBind vb ++ []) = some (vb, []) :=
      decodeVarBind_enc hvb []
    rw [vbLoop_step hvlen hstep, vbLoop_nil]

/-- Witness for C2's amended statement at concrete inputs: an error response
(263) and a single-varbind success response, both checked end to end. -/
theorem claim2_witness :
    (7 : Nat) < 2 ^ 32 ∧ (263 : Nat) < 2 ^ 16 ∧ (1 : Nat) < 2 ^ 16 ∧
    (((263 : Nat) ≠ 0 →
      decodeResponsePdu (encodeResponsePduBody 7 263 1 [cexVb])
          (encodeResponsePduBody 7 263 1 [cexVb]).length =
        some ⟨7, 263, 1, []⟩) ∧
     (ValidVarBind cexVb →
      decodeResponsePdu (encodeResponsePduBody 7 0 1 [cexVb])
          (encodeResponsePduBody 7 0 1 [cexVb]).length =
        some ⟨7, 0, 0, [cexVb]⟩)) :=
  ⟨by decide, by decide, by decide,
    claim2_amended 7 263 1 [cexVb] cexVb (by decide) (by decide) (by decide)⟩

end Snmpkit
